import Mathlib

/-!
Verification of the IntelliFleet Route & Capacity Allocation Engine.

This file is a shallow embedding of the backend's core modules:

* `backend/main.py` (the `/upload` edge-map ingestion and the
  `/optimize-with-capacity` plan aggregation loop),
* `backend/optimizer.py` (`optimize`, the LP path selector),
* `backend/capacity_optimizer.py` (`assign_vehicles_for_leg`).

Python reals are modelled as `ℚ`.  The two CBC solver invocations are
modelled by an explicit solver-outcome parameter: `none` stands for a solver
exception or a non-optimal status (`model.status != 1`), and `some sel`
stands for a returned 0/1 assignment; theorems that rely on the solver being
sound/complete/optimal state those facts as explicit hypotheses
(`PathFeasible`, `PathOptimal`, `VehFeasible`).

`datetime` values built by `strptime("%H:%M")` are modelled by the number of
hours since midnight of the reference day (a `ℚ`, which may exceed 24 after
adding a `timedelta`), and `strftime("%H:%M")` by `formatHHMM`, the
(hour, minute) pair it prints.
-/

namespace IntelliFleet

/-- Python's `str.lower()`: lower-case every character. -/
def pyLower (s : String) : String := ⟨s.data.map Char.toLower⟩

/-- Python's `str.strip()`: drop leading and trailing whitespace. -/
def pyStrip (s : String) : String :=
  ⟨((s.data.dropWhile Char.isWhitespace).reverse.dropWhile Char.isWhitespace).reverse⟩

/-- Python's `<` on strings: lexicographic comparison of the character
sequences (modelled by the lexicographic order on `List Char`). -/
def pyStrLt (a b : String) : Prop := a.data < b.data

/-- Python's `<=` on strings. -/
def pyStrLe (a b : String) : Prop := a.data ≤ b.data

instance : DecidableRel pyStrLt := fun a b => by
  unfold pyStrLt; infer_instance

instance : DecidableRel pyStrLe := fun a b => by
  unfold pyStrLe; infer_instance

instance (c t e : Prop) [Decidable c] [Decidable t] [Decidable e] :
    Decidable (if c then t else e) := by
  by_cases h : c
  · rw [if_pos h]; infer_instance
  · rw [if_neg h]; infer_instance

/-- Rounding of an exact rational to the nearest integer with ties going to
the even integer, the rule used by Python's builtin `round`. -/
def roundHalfEven (x : ℚ) : ℤ :=
  let f : ℤ := ⌊x⌋
  let frac : ℚ := x - f
  if frac < 1/2 then f
  else if 1/2 < frac then f + 1
  else if Even f then f else f + 1

/-- Python's `round(x, 2)`: round to two decimal places, ties to even. -/
def round2 (x : ℚ) : ℚ := (roundHalfEven (x * 100) : ℚ) / 100

/-- The (hour, minute) pair printed by `strftime("%H:%M")` for a `datetime`
that lies `t` hours after midnight of the reference day: total minutes are
truncated, the hour is reduced modulo 24. -/
def formatHHMM (t : ℚ) : ℤ × ℤ :=
  ((⌊t * 60⌋ / 60) % 24, ⌊t * 60⌋ % 60)

/-- The time-of-day (in hours) obtained by wrapping an instant `t` modulo
24 hours. -/
def wrap24 (t : ℚ) : ℚ := t - 24 * ⌊t / 24⌋

/-- An edge of the transport graph, as built by `/upload` in `main.py` and
consumed by `optimize` and (as a leg dict) by `assign_vehicles_for_leg`.
The Python dict keys `"from"`/`"to"` are the fields `fromCity`/`toCity`
(`from` is a Lean keyword); the display-only `geometry` list is determined
by the four coordinates and is omitted. -/
structure Edge where
  fromCity : String
  toCity : String
  mode : String
  distance : ℚ
  time : ℚ
  fuel : ℚ
  lat_src : ℚ
  lon_src : ℚ
  lat_dst : ℚ
  lon_dst : ℚ
deriving DecidableEq

/-- Ordered (from, to) pair keying the global `edges` dict. -/
abbrev Key := String × String

/-- The global `edges` dict of `main.py`, as an insertion-ordered
association list with at most one binding per key (Python dict). -/
abbrev EdgeMap := List (Key × Edge)

/-- Assignment `edges[k] = e` on a Python dict: replace the binding if the
key is present, otherwise append it. -/
def setEdge (k : Key) (e : Edge) : EdgeMap → EdgeMap
  | [] => [(k, e)]
  | (k', e') :: rest => if k' = k then (k, e) :: rest else (k', e') :: setEdge k e rest

/-- Lookup `edges.get(k)` on the association list. -/
def lookupE (k : Key) : EdgeMap → Option Edge
  | [] => none
  | (k', e) :: rest => if k' = k then some e else lookupE k rest

/-- One row of the uploaded air file (columns of `required_air_cols`). -/
structure AirRow where
  source_airport : String
  destination_airport : String
  lat_src : ℚ
  lon_src : ℚ
  lat_dst : ℚ
  lon_dst : ℚ

/-- One row of the uploaded road file (columns of `required_road_cols`). -/
structure RoadRow where
  source_city : String
  destination_city : String
  lat_src : ℚ
  lon_src : ℚ
  lat_dst : ℚ
  lon_dst : ℚ

/-- Key of the edge produced for an air row:
`str(r.source_airport).lower().strip()` etc. -/
def airKey (r : AirRow) : Key :=
  (pyStrip (pyLower r.source_airport), pyStrip (pyLower r.destination_airport))

/-- Key of the edge produced for a road row. -/
def roadKey (r : RoadRow) : Key :=
  (pyStrip (pyLower r.source_city), pyStrip (pyLower r.destination_city))

/-- The edge dict built for an air row in `/upload`.  `hav` models
`utils.haversine` and `am` models `utils.air_metrics` (both are external
collaborators of the core, passed in as parameters). -/
def airEdgeOf (hav : ℚ → ℚ → ℚ → ℚ → ℚ) (am : ℚ → String → ℚ × ℚ)
    (country : String) (r : AirRow) : Edge :=
  let dist := hav r.lat_src r.lon_src r.lat_dst r.lon_dst
  let tf := am dist country
  { fromCity := (airKey r).1, toCity := (airKey r).2, mode := "air",
    distance := round2 dist, time := round2 tf.1, fuel := round2 tf.2,
    lat_src := r.lat_src, lon_src := r.lon_src,
    lat_dst := r.lat_dst, lon_dst := r.lon_dst }

/-- The edge dict built for a road row in `/upload`; `rm` models
`utils.road_metrics`. -/
def roadEdgeOf (hav : ℚ → ℚ → ℚ → ℚ → ℚ) (rm : ℚ → String → ℚ × ℚ)
    (country : String) (r : RoadRow) : Edge :=
  let dist := hav r.lat_src r.lon_src r.lat_dst r.lon_dst
  let tf := rm dist country
  { fromCity := (roadKey r).1, toCity := (roadKey r).2, mode := "road",
    distance := round2 dist, time := round2 tf.1, fuel := round2 tf.2,
    lat_src := r.lat_src, lon_src := r.lon_src,
    lat_dst := r.lat_dst, lon_dst := r.lon_dst }

/-- The `-------- PROCESS AIR --------` loop of `/upload`: every air row
unconditionally assigns its edge. -/
def process_air (hav : ℚ → ℚ → ℚ → ℚ → ℚ) (am : ℚ → String → ℚ × ℚ)
    (country : String) (rows : List AirRow) (m : EdgeMap) : EdgeMap :=
  rows.foldl (fun acc r => setEdge (airKey r) (airEdgeOf hav am country r) acc) m

/-- The body of the `-------- PROCESS ROAD --------` loop of `/upload`: a
road row is written only when the key is absent or the existing edge is not
an air edge (`if (src, dst) not in edges or edges[(src, dst)]["mode"] !=
"air"`). -/
def road_step (hav : ℚ → ℚ → ℚ → ℚ → ℚ) (rm : ℚ → String → ℚ × ℚ)
    (country : String) (m : EdgeMap) (r : RoadRow) : EdgeMap :=
  match lookupE (roadKey r) m with
  | some ex => if ex.mode ≠ "air" then setEdge (roadKey r) (roadEdgeOf hav rm country r) m else m
  | none => setEdge (roadKey r) (roadEdgeOf hav rm country r) m

/-- The `-------- PROCESS ROAD --------` loop of `/upload`. -/
def process_road (hav : ℚ → ℚ → ℚ → ℚ → ℚ) (rm : ℚ → String → ℚ × ℚ)
    (country : String) (rows : List RoadRow) (m : EdgeMap) : EdgeMap :=
  rows.foldl (road_step hav rm country) m

/-- The edge map produced by one `/upload` call: `edges` is reset to the
empty dict, all air rows are processed, then all road rows. -/
def upload_edges (hav : ℚ → ℚ → ℚ → ℚ → ℚ) (am rm : ℚ → String → ℚ × ℚ)
    (country : String) (airRows : List AirRow) (roadRows : List RoadRow) : EdgeMap :=
  process_road hav rm country roadRows (process_air hav am country airRows [])

/-- Keys of an edge map. -/
def keysOf (m : EdgeMap) : List Key := m.map Prod.fst

/-! ## Path Optimizer (`optimizer.py`, `optimize`)

The LP model of `optimize` has one binary variable per edge key; the solver
outcome is modelled by `Option (Key → Bool)`.  `PathFeasible` is the exact
constraint system the code builds; a sound solver only ever returns
selections satisfying it. -/

/-- Number of selected edges entering node `n`
(`lpSum(x[(i, j)] ... if j == n)`), as an integer. -/
def inflowN (edges : EdgeMap) (sel : Key → Bool) (n : String) : ℤ :=
  (edges.countP (fun ke => sel ke.1 && decide (ke.1.2 = n)) : ℤ)

/-- Number of selected edges leaving node `n`. -/
def outflowN (edges : EdgeMap) (sel : Key → Bool) (n : String) : ℤ :=
  (edges.countP (fun ke => sel ke.1 && decide (ke.1.1 = n)) : ℤ)

/-- The constraint system of `optimize`: flow conservation at every node of
the `nodes` dict (source and sink get net flow ±1, the source branch is
checked first), plus inflow exactly 1 at every via node.  A `via` given as a
single node in the Python code behaves as the singleton list. -/
def PathFeasible (nodes : List String) (edges : EdgeMap) (start end_ : String)
    (via : List String) (sel : Key → Bool) : Prop :=
  (∀ n ∈ nodes,
     if n = start then outflowN edges sel n - inflowN edges sel n = 1
     else if n = end_ then inflowN edges sel n - outflowN edges sel n = 1
     else inflowN edges sel n = outflowN edges sel n) ∧
  (∀ v ∈ via, inflowN edges sel v = 1)

/-- The per-edge weight selected by the objective, exactly the three
branches of the objective-function construction in `optimize`. -/
def edgeWeight (objective : String) (e : Edge) : ℚ :=
  if objective = "time" ∨ objective = "fastest" then e.time
  else if objective = "distance" then e.distance
  else e.fuel

/-- Objective value of a selection. -/
def objVal (objective : String) (edges : EdgeMap) (sel : Key → Bool) : ℚ :=
  ((edges.filter (fun ke => sel ke.1)).map (fun ke => edgeWeight objective ke.2)).sum

/-- A solver outcome CBC can report as optimal: feasible and of minimal
objective value among feasible selections. -/
def PathOptimal (nodes : List String) (edges : EdgeMap) (start end_ : String)
    (objective : String) (via : List String) (sel : Key → Bool) : Prop :=
  PathFeasible nodes edges start end_ via sel ∧
  ∀ sel', PathFeasible nodes edges start end_ via sel' →
    objVal objective edges sel ≤ objVal objective edges sel'

/-- The sort key order of the final
`sorted(route, key=lambda r: (r.get("from"), r.get("to")))`. -/
def edgeLe (a b : Edge) : Prop :=
  pyStrLt a.fromCity b.fromCity ∨ (a.fromCity = b.fromCity ∧ pyStrLe a.toCity b.toCity)

instance : DecidableRel edgeLe := fun a b => by
  unfold edgeLe; infer_instance

instance : IsTotal Edge edgeLe := by
  constructor
  intro a b
  unfold edgeLe pyStrLt pyStrLe
  rcases lt_trichotomy a.fromCity.data b.fromCity.data with h | h | h
  · exact Or.inl (Or.inl h)
  · have he : a.fromCity = b.fromCity := congrArg String.mk h
    rcases le_total a.toCity.data b.toCity.data with h2 | h2
    · exact Or.inl (Or.inr ⟨he, h2⟩)
    · exact Or.inr (Or.inr ⟨he.symm, h2⟩)
  · exact Or.inr (Or.inl h)

instance : IsTrans Edge edgeLe := by
  constructor
  intro a b c hab hbc
  unfold edgeLe pyStrLt pyStrLe at *
  rcases hab with h1 | ⟨h1, h1'⟩
  · rcases hbc with h2 | ⟨h2, _⟩
    · exact Or.inl (h1.trans h2)
    · exact Or.inl (h2 ▸ h1)
  · rcases hbc with h2 | ⟨h2, h2'⟩
    · exact Or.inl (h1 ▸ h2)
    · exact Or.inr ⟨h1.trans h2, h1'.trans h2'⟩

/-- The `optimize` route extraction: a failed or non-optimal solve (modelled
by `none`, covering both the `except` branch and `model.status != 1`)
returns `[]`; otherwise the selected edge dicts are collected and sorted by
the (from, to) key.  No code path raises. -/
def optimize (nodes : List String) (edges : EdgeMap) (start end_ : String)
    (objective : String) (via : List String) (solverOut : Option (Key → Bool)) : List Edge :=
  match solverOut with
  | none => []
  | some sel => List.insertionSort edgeLe ((edges.filter (fun ke => sel ke.1)).map Prod.snd)

/-! ## Capacity Allocator (`capacity_optimizer.py`, `assign_vehicles_for_leg`) -/

/-- A row of the prepared vehicles dataframe (output of
`prepare_vehicles_df`).  `departure_time` is the vehicle's configured
departure string after `strptime("%H:%M")`, as hours since midnight; `none`
models a string that parsing rejects (the `except` branch). -/
structure Vehicle where
  vehicle_id : String
  base_city : String
  capacity_kg : ℚ
  speed_kmph : ℚ
  cost_per_km : ℚ
  departure_time : Option ℚ
  vehicle_type : String
deriving DecidableEq

/-- The `departure` datetime parsed in the loop body: the configured time,
or the `"08:00"` fallback when parsing fails. -/
def parseDeparture (d : Option ℚ) : ℚ := d.getD 8

/-- One element of the `assigned` list.  The fields mirror the appended
dict; `capacity_kg`, `load_raw`, `dep_dt` and `arrival_dt` additionally
record the loop's local values (`available.loc[i, "capacity_kg"]`, `load`,
`departure`, `arrival`) from which the reported fields are produced —
`load_kg = round2 load_raw`, `departure = formatHHMM dep_dt`,
`arrival = formatHHMM arrival_dt`. -/
structure AssignedVehicle where
  vehicle_id : String
  vehicle_type : String
  capacity_kg : ℚ
  load_raw : ℚ
  load_kg : ℚ
  dep_dt : ℚ
  departure : ℤ × ℤ
  arrival_dt : ℚ
  arrival : ℤ × ℤ
  distance : ℚ
  travel_time_hours : ℚ
  fuel_cost : ℚ
deriving DecidableEq

/-- The dict appended for a selected vehicle carrying `load`. -/
def mkEntry (leg : Edge) (v : Vehicle) (load : ℚ) : AssignedVehicle :=
  let departure := parseDeparture v.departure_time
  let travel_time := leg.distance / v.speed_kmph
  let arrival := departure + travel_time
  { vehicle_id := v.vehicle_id, vehicle_type := v.vehicle_type,
    capacity_kg := v.capacity_kg,
    load_raw := load, load_kg := round2 load,
    dep_dt := departure, departure := formatHHMM departure,
    arrival_dt := arrival, arrival := formatHHMM arrival,
    distance := round2 leg.distance,
    travel_time_hours := round2 travel_time,
    fuel_cost := round2 (v.cost_per_km * leg.distance) }

/-- The extraction loop over `available.index`: a vehicle is appended iff it
is selected and cargo remains; its load is `min(capacity, remaining)` and
`remaining` is decremented.  `i` is the position in `available`. -/
def assignLoop (leg : Edge) (sel : ℕ → Bool) :
    List Vehicle → ℕ → ℚ → List AssignedVehicle
  | [], _, _ => []
  | v :: vs, i, remaining =>
    if sel i = true ∧ 0 < remaining then
      mkEntry leg v (min v.capacity_kg remaining) ::
        assignLoop leg sel vs (i + 1) (remaining - min v.capacity_kg remaining)
    else assignLoop leg sel vs (i + 1) remaining

/-- The running `last_arrival` update: `None` is falsy, and a strictly later
arrival datetime replaces the current one. -/
def lastArrivalFold : List AssignedVehicle → Option ℚ → Option ℚ
  | [], acc => acc
  | e :: rest, acc =>
    lastArrivalFold rest
      (match acc with
       | none => some e.arrival_dt
       | some m => if m < e.arrival_dt then some e.arrival_dt else some m)

/-- The returned leg-summary dict.  `last_arrival_dt` records the loop's
`last_arrival` datetime, from which the reported field is produced:
`last_arrival = last_arrival_dt.map formatHHMM` (the
`last_arrival.strftime("%H:%M") if last_arrival else None` expression). -/
structure Assignment where
  fromCity : String
  toCity : String
  vehicles : List AssignedVehicle
  leg_distance : ℚ
  leg_time : ℚ
  last_arrival_dt : Option ℚ
  last_arrival : Option (ℤ × ℤ)
deriving DecidableEq

/-- The vehicles filtered to the leg's origin:
`vehicles_df["base_city"].str.lower() == leg["from"].lower()`. -/
def vehiclesAt (vehicles : List Vehicle) (city : String) : List Vehicle :=
  vehicles.filter (fun v => pyLower v.base_city == pyLower city)

/-- Total capacity of the selected vehicles in `vs`, the left-hand side of
the LP covering constraint, with `i` the position of the head of `vs`. -/
def selCapSum (sel : ℕ → Bool) : List Vehicle → ℕ → ℚ
  | [], _ => 0
  | v :: vs, i => (if sel i = true then v.capacity_kg else 0) + selCapSum sel vs (i + 1)

/-- The LP constraint of `assign_vehicles_for_leg`: the selected capacity
covers the cargo. -/
def VehFeasible (vehicles : List Vehicle) (leg : Edge) (total_goods : ℚ)
    (sel : ℕ → Bool) : Prop :=
  total_goods ≤ selCapSum sel (vehiclesAt vehicles leg.fromCity) 0

/-- `assign_vehicles_for_leg`: `None` when no vehicle is based at the leg's
origin or when the solve is not optimal (solver outcome `none`); otherwise
the assignment built by the extraction loop.  `objective` only shapes the
LP objective and therefore only affects which selection the solver
returns. -/
def assign_vehicles_for_leg (vehicles : List Vehicle) (leg : Edge)
    (total_goods : ℚ) (objective : String)
    (solverOut : Option (ℕ → Bool)) : Option Assignment :=
  let available := vehiclesAt vehicles leg.fromCity
  if available = [] then none
  else
    match solverOut with
    | none => none
    | some sel =>
      let assigned := assignLoop leg sel available 0 total_goods
      let la := lastArrivalFold assigned none
      some { fromCity := leg.fromCity, toCity := leg.toCity,
             vehicles := assigned,
             leg_distance := leg.distance, leg_time := leg.time,
             last_arrival_dt := la, last_arrival := la.map formatHHMM }

/-! ## Plan Aggregator (`main.py`, `optimize_with_capacity`) -/

/-- The `capacity_data` dict assembled by `optimize_with_capacity`. -/
structure TransportPlan where
  total_goods_kg : ℚ
  route : List String
  objective : String
  legs : List Assignment
  final_delivery_time : Option (ℤ × ℤ)
deriving DecidableEq

/-- The per-leg loop of `optimize_with_capacity`: each leg is assigned from
the same full vehicle pool; the first `None` assignment aborts (the
`HTTPException`, modelled by `none`).  `sels` supplies the per-leg solver
outcomes in leg order. -/
def buildLegs (vehicles : List Vehicle) (goods : ℚ) (objective : String) :
    List Edge → List (Option (ℕ → Bool)) → Option (List Assignment)
  | [], _ => some []
  | leg :: rest, sels =>
    match assign_vehicles_for_leg vehicles leg goods objective (sels.headD none) with
    | none => none
    | some a => (buildLegs vehicles goods objective rest sels.tail).map (a :: ·)

/-- The plan assembly of `optimize_with_capacity` after the route is
computed: an empty route is the 404 branch (`none`); otherwise the node
sequence is `[r["from"] for r in route] + [route[-1]["to"]]` and
`final_delivery_time` is the loop-final `final_arrival`, i.e. the last
processed leg's `last_arrival` (`None` initial value if there is none). -/
def optimize_with_capacity_plan (vehicles : List Vehicle) (goods : ℚ)
    (objective : String) (route : List Edge)
    (sels : List (Option (ℕ → Bool))) : Option TransportPlan :=
  match route with
  | [] => none
  | r0 :: rs =>
    match buildLegs vehicles goods objective (r0 :: rs) sels with
    | none => none
    | some legs =>
      some { total_goods_kg := goods,
             route := (r0 :: rs).map (·.fromCity) ++ [((r0 :: rs).getLast (by simp)).toCity],
             objective := objective,
             legs := legs,
             final_delivery_time :=
               match legs.getLast? with
               | some a => a.last_arrival
               | none => none }

/-- Net outflow minus inflow, summed over the node list. -/
def netSum (nodes : List String) (edges : EdgeMap) (sel : Key → Bool) : ℤ :=
  (nodes.map (fun n => outflowN edges sel n - inflowN edges sel n)).sum

/-- Concrete road edge a → b used in witnesses. -/
def edgeAB : Edge := ⟨"a", "b", "road", 100, 2, 50, 0, 0, 0, 0⟩

/-- Concrete road edge b → c used in witnesses. -/
def edgeBC : Edge := ⟨"b", "c", "road", 150, 3, 75, 0, 0, 0, 0⟩

/-- Concrete road edge z → a used in witnesses. -/
def edgeZA : Edge := ⟨"z", "a", "road", 80, 1, 40, 0, 0, 0, 0⟩

/-- Concrete truck based at "a" (capacity 500 kg, departure 08:00). -/
def vehA : Vehicle := ⟨"A-TRU-01", "a", 500, 80, 1/2, some 8, "truck"⟩

/-- Concrete truck based at "z". -/
def vehZ : Vehicle := ⟨"Z-TRU-01", "z", 500, 80, 1/2, some 8, "truck"⟩

/-- Concrete truck based at "b" departing 06:00. -/
def vehB6 : Vehicle := ⟨"B-TRU-01", "b", 500, 80, 1/2, some 6, "truck"⟩

/-- Concrete truck based at "a" departing 23:00 (crosses midnight on a
100 km leg). -/
def vehLate : Vehicle := ⟨"A-TRU-02", "a", 500, 80, 1/2, some 23, "truck"⟩

/-- Concrete truck whose capacity 99.999 kg is not a multiple of 0.01. -/
def vehC1 : Vehicle := ⟨"A-TRU-03", "a", 99999/1000, 80, 1/2, some 8, "truck"⟩

/-- Concrete truck with capacity 100 kg. -/
def vehC2 : Vehicle := ⟨"A-TRU-04", "a", 100, 80, 1/2, some 8, "truck"⟩

/-- The leg result produced for `edgeAB` from the pool `[vehA, vehB6]`. -/
def assignC3a : Assignment :=
  { fromCity := "a", toCity := "b", vehicles := [mkEntry edgeAB vehA 100],
    leg_distance := 100, leg_time := 2,
    last_arrival_dt := some (mkEntry edgeAB vehA 100).arrival_dt,
    last_arrival := some (formatHHMM (mkEntry edgeAB vehA 100).arrival_dt) }

/-- The leg result produced for `edgeBC` from the pool `[vehA, vehB6]`. -/
def assignC3b : Assignment :=
  { fromCity := "b", toCity := "c", vehicles := [mkEntry edgeBC vehB6 100],
    leg_distance := 150, leg_time := 3,
    last_arrival_dt := some (mkEntry edgeBC vehB6 100).arrival_dt,
    last_arrival := some (formatHHMM (mkEntry edgeBC vehB6 100).arrival_dt) }

/-- The plan produced for the two-leg route a → b → c. -/
def planC3 : TransportPlan :=
  { total_goods_kg := 100, route := ["a", "b", "c"], objective := "cost",
    legs := [assignC3a, assignC3b],
    final_delivery_time := assignC3b.last_arrival }

/-! ## Lemmas about the edge map (`/upload`) -/

theorem setEdge_nil (k : Key) (e : Edge) : setEdge k e [] = [(k, e)] := rfl

theorem setEdge_cons_hit (k k' : Key) (e e' : Edge) (m : EdgeMap) (h : k' = k) :
    setEdge k e ((k', e') :: m) = (k, e) :: m := by
  simp only [setEdge]
  rw [if_pos h]

theorem setEdge_cons_miss (k k' : Key) (e e' : Edge) (m : EdgeMap) (h : k' ≠ k) :
    setEdge k e ((k', e') :: m) = (k', e') :: setEdge k e m := by
  simp only [setEdge]
  rw [if_neg h]

theorem lookupE_cons_hit (p k' : Key) (e : Edge) (m : EdgeMap) (h : k' = p) :
    lookupE p ((k', e) :: m) = some e := by
  simp only [lookupE]
  rw [if_pos h]

theorem lookupE_cons_miss (p k' : Key) (e : Edge) (m : EdgeMap) (h : k' ≠ p) :
    lookupE p ((k', e) :: m) = lookupE p m := by
  simp only [lookupE]
  rw [if_neg h]

theorem lookupE_setEdge (p k : Key) (e : Edge) (m : EdgeMap) :
    lookupE p (setEdge k e m) = if k = p then some e else lookupE p m := by
  induction m with
  | nil =>
    rw [setEdge_nil]
    by_cases hp : k = p
    · rw [lookupE_cons_hit p k e [] hp, if_pos hp]
    · rw [lookupE_cons_miss p k e [] hp, if_neg hp]
  | cons he rest ih =>
    obtain ⟨k', e'⟩ := he
    by_cases hk : k' = k
    · subst hk
      rw [setEdge_cons_hit k' k' e e' rest rfl]
      by_cases hp : k' = p
      · rw [lookupE_cons_hit p k' e rest hp, lookupE_cons_hit p k' e' rest hp, if_pos hp]
      · rw [lookupE_cons_miss p k' e rest hp, lookupE_cons_miss p k' e' rest hp, if_neg hp]
    · rw [setEdge_cons_miss k k' e e' rest hk]
      by_cases hp : k' = p
      · have hkp : ¬ k = p := fun h => hk (hp.trans h.symm)
        rw [lookupE_cons_hit p k' e' (setEdge k e rest) hp,
          lookupE_cons_hit p k' e' rest hp, if_neg hkp]
      · rw [lookupE_cons_miss p k' e' (setEdge k e rest) hp,
          lookupE_cons_miss p k' e' rest hp, ih]

theorem keysOf_cons (k : Key) (e : Edge) (m : EdgeMap) :
    keysOf ((k, e) :: m) = k :: keysOf m := rfl

theorem mem_keysOf_setEdge (p k : Key) (e : Edge) (m : EdgeMap) :
    p ∈ keysOf (setEdge k e m) ↔ p = k ∨ p ∈ keysOf m := by
  induction m with
  | nil => simp [setEdge_nil, keysOf]
  | cons he rest ih =>
    obtain ⟨k', e'⟩ := he
    by_cases hk : k' = k
    · subst hk
      rw [setEdge_cons_hit k' k' e e' rest rfl, keysOf_cons, keysOf_cons]
      simp only [List.mem_cons]
      tauto
    · rw [setEdge_cons_miss k k' e e' rest hk, keysOf_cons, keysOf_cons]
      simp only [List.mem_cons, ih]
      tauto

theorem nodup_keysOf_setEdge (k : Key) (e : Edge) (m : EdgeMap)
    (h : (keysOf m).Nodup) : (keysOf (setEdge k e m)).Nodup := by
  induction m with
  | nil => simp [setEdge_nil, keysOf]
  | cons he rest ih =>
    obtain ⟨k', e'⟩ := he
    rw [keysOf_cons, List.nodup_cons] at h
    by_cases hk : k' = k
    · subst hk
      rw [setEdge_cons_hit k' k' e e' rest rfl, keysOf_cons, List.nodup_cons]
      exact h
    · rw [setEdge_cons_miss k k' e e' rest hk, keysOf_cons, List.nodup_cons]
      refine ⟨fun hc => ?_, ih h.2⟩
      rcases (mem_keysOf_setEdge k' k e rest).mp hc with h1 | h1
      · exact hk h1
      · exact h.1 h1

theorem process_air_cons (hav : ℚ → ℚ → ℚ → ℚ → ℚ) (am : ℚ → String → ℚ × ℚ)
    (country : String) (r : AirRow) (rows : List AirRow) (m : EdgeMap) :
    process_air hav am country (r :: rows) m =
      process_air hav am country rows (setEdge (airKey r) (airEdgeOf hav am country r) m) := rfl

theorem process_road_cons (hav : ℚ → ℚ → ℚ → ℚ → ℚ) (rm : ℚ → String → ℚ × ℚ)
    (country : String) (r : RoadRow) (rows : List RoadRow) (m : EdgeMap) :
    process_road hav rm country (r :: rows) m =
      process_road hav rm country rows (road_step hav rm country m r) := rfl

theorem road_step_absent (hav : ℚ → ℚ → ℚ → ℚ → ℚ) (rm : ℚ → String → ℚ × ℚ)
    (country : String) (m : EdgeMap) (r : RoadRow)
    (hl : lookupE (roadKey r) m = none) :
    road_step hav rm country m r = setEdge (roadKey r) (roadEdgeOf hav rm country r) m := by
  rw [road_step.eq_def, hl]

theorem road_step_nonair (hav : ℚ → ℚ → ℚ → ℚ → ℚ) (rm : ℚ → String → ℚ × ℚ)
    (country : String) (m : EdgeMap) (r : RoadRow) (ex : Edge)
    (hl : lookupE (roadKey r) m = some ex) (hm : ex.mode ≠ "air") :
    road_step hav rm country m r = setEdge (roadKey r) (roadEdgeOf hav rm country r) m := by
  rw [road_step.eq_def, hl]
  simp [hm]

theorem road_step_air (hav : ℚ → ℚ → ℚ → ℚ → ℚ) (rm : ℚ → String → ℚ × ℚ)
    (country : String) (m : EdgeMap) (r : RoadRow) (ex : Edge)
    (hl : lookupE (roadKey r) m = some ex) (hm : ex.mode = "air") :
    road_step hav rm country m r = m := by
  rw [road_step.eq_def, hl]
  simp [hm]

theorem nodup_keysOf_process_air (hav : ℚ → ℚ → ℚ → ℚ → ℚ) (am : ℚ → String → ℚ × ℚ)
    (country : String) (rows : List AirRow) (m : EdgeMap)
    (h : (keysOf m).Nodup) : (keysOf (process_air hav am country rows m)).Nodup := by
  induction rows generalizing m with
  | nil => exact h
  | cons r rows ih =>
    rw [process_air_cons]
    exact ih _ (nodup_keysOf_setEdge _ _ _ h)

theorem nodup_keysOf_process_road (hav : ℚ → ℚ → ℚ → ℚ → ℚ) (rm : ℚ → String → ℚ × ℚ)
    (country : String) (rows : List RoadRow) (m : EdgeMap)
    (h : (keysOf m).Nodup) : (keysOf (process_road hav rm country rows m)).Nodup := by
  induction rows generalizing m with
  | nil => exact h
  | cons r rows ih =>
    rw [process_road_cons]
    cases hl : lookupE (roadKey r) m with
    | none =>
      rw [road_step_absent hav rm country m r hl]
      exact ih _ (nodup_keysOf_setEdge _ _ _ h)
    | some ex =>
      by_cases hm : ex.mode = "air"
      · rw [road_step_air hav rm country m r ex hl hm]
        exact ih _ h
      · rw [road_step_nonair hav rm country m r ex hl hm]
        exact ih _ (nodup_keysOf_setEdge _ _ _ h)

theorem process_air_air_mode (hav : ℚ → ℚ → ℚ → ℚ → ℚ) (am : ℚ → String → ℚ × ℚ)
    (country : String) (rows : List AirRow) (m : EdgeMap) (k : Key)
    (h : (∃ r ∈ rows, airKey r = k) ∨ (∃ e, lookupE k m = some e ∧ e.mode = "air")) :
    ∃ e, lookupE k (process_air hav am country rows m) = some e ∧ e.mode = "air" := by
  induction rows generalizing m with
  | nil =>
    rcases h with h | h
    · simp at h
    · exact h
  | cons r rows ih =>
    rw [process_air_cons]
    by_cases hk : airKey r = k
    · refine ih _ (Or.inr ?_)
      refine ⟨airEdgeOf hav am country r, ?_, rfl⟩
      rw [lookupE_setEdge, if_pos hk]
    · rcases h with h | h
      · rcases h with ⟨r', hr', hk'⟩
        rcases List.mem_cons.mp hr' with rfl | hr'
        · exact absurd hk' hk
        · exact ih _ (Or.inl ⟨r', hr', hk'⟩)
      · rcases h with ⟨e, he, hm⟩
        refine ih _ (Or.inr ⟨e, ?_, hm⟩)
        rw [lookupE_setEdge, if_neg hk]
        exact he

theorem process_road_keeps_air (hav : ℚ → ℚ → ℚ → ℚ → ℚ) (rm : ℚ → String → ℚ × ℚ)
    (country : String) (rows : List RoadRow) (m : EdgeMap) (k : Key) (e : Edge)
    (he : lookupE k m = some e) (hm : e.mode = "air") :
    lookupE k (process_road hav rm country rows m) = some e := by
  induction rows generalizing m with
  | nil => exact he
  | cons r rows ih =>
    rw [process_road_cons]
    by_cases hk : roadKey r = k
    · subst hk
      rw [road_step_air hav rm country m r e he hm]
      exact ih _ he
    · cases hl : lookupE (roadKey r) m with
      | none =>
        rw [road_step_absent hav rm country m r hl]
        refine ih _ ?_
        rw [lookupE_setEdge, if_neg hk]
        exact he
      | some ex =>
        by_cases hx : ex.mode = "air"
        · rw [road_step_air hav rm country m r ex hl hx]
          exact ih _ he
        · rw [road_step_nonair hav rm country m r ex hl hx]
          refine ih _ ?_
          rw [lookupE_setEdge, if_neg hk]
          exact he

/-- Claim C5: after ingesting any air file and road file, the edge map has
at most one edge per ordered (from, to) pair (its key list has no
duplicates); a pair for which some air row was ingested ends up with an air
edge, never replaced by a road edge, regardless of the order of rows within
each file; and a road row written over an existing road edge for the same
pair does overwrite it. -/
theorem claim_C5 (hav : ℚ → ℚ → ℚ → ℚ → ℚ) (am rm : ℚ → String → ℚ × ℚ)
    (country : String) (airRows : List AirRow) (roadRows : List RoadRow) :
    (keysOf (upload_edges hav am rm country airRows roadRows)).Nodup ∧
    (∀ k, (∃ r ∈ airRows, airKey r = k) →
      ∃ e, lookupE k (upload_edges hav am rm country airRows roadRows) = some e ∧
        e.mode = "air") ∧
    (∀ (m : EdgeMap) (r : RoadRow) (ex : Edge),
      lookupE (roadKey r) m = some ex → ex.mode = "road" →
      lookupE (roadKey r) (process_road hav rm country [r] m) =
        some (roadEdgeOf hav rm country r)) := by
  refine ⟨?_, ?_, ?_⟩
  · exact nodup_keysOf_process_road hav rm country roadRows _
      (nodup_keysOf_process_air hav am country airRows [] (by simp [keysOf]))
  · intro k hk
    obtain ⟨e, he, hm⟩ := process_air_air_mode hav am country airRows [] k (Or.inl hk)
    exact ⟨e, process_road_keeps_air hav rm country roadRows _ k e he hm, hm⟩
  · intro m r ex hl hm
    have hne : ex.mode ≠ "air" := by rw [hm]; decide
    show lookupE (roadKey r) (road_step hav rm country m r) = _
    rw [road_step_nonair hav rm country m r ex hl hne, lookupE_setEdge, if_pos rfl]

/-- Witness for C5 at a concrete upload: one air row and one road row for
the same (a, b) pair; the resulting map keeps the air edge. -/
theorem claim_C5_witness :
    (∃ r ∈ [(⟨" A", "b", 0, 0, 0, 0⟩ : AirRow)], airKey r = ("a", "b")) ∧
    (∃ e, lookupE ("a", "b")
        (upload_edges (fun _ _ _ _ => 1) (fun _ _ => (1, 1)) (fun _ _ => (2, 2)) "US"
          [(⟨" A", "b", 0, 0, 0, 0⟩ : AirRow)] [(⟨"a", "B ", 0, 0, 0, 0⟩ : RoadRow)]) =
        some e ∧ e.mode = "air") := by
  refine ⟨⟨⟨" A", "b", 0, 0, 0, 0⟩, by simp, by decide⟩, ?_⟩
  exact (claim_C5 (fun _ _ _ _ => 1) (fun _ _ => (1, 1)) (fun _ _ => (2, 2)) "US"
    [(⟨" A", "b", 0, 0, 0, 0⟩ : AirRow)] [(⟨"a", "B ", 0, 0, 0, 0⟩ : RoadRow)]).2.1
    ("a", "b") ⟨⟨" A", "b", 0, 0, 0, 0⟩, by simp, by decide⟩

/-! ## Lemmas about the Path Optimizer -/

theorem sum_map_add_int {α : Type} (l : List α) (f g : α → ℤ) :
    (l.map (fun x => f x + g x)).sum = (l.map f).sum + (l.map g).sum := by
  induction l with
  | nil => simp
  | cons a l ih => simp [ih]; ring

theorem sum_map_neg_int {α : Type} (l : List α) (f : α → ℤ) :
    (l.map (fun x => -(f x))).sum = -((l.map f).sum) := by
  induction l with
  | nil => simp
  | cons a l ih => simp only [List.map_cons, List.sum_cons, ih]; ring

theorem sum_indicator_of_mem (a : String) (l : List String) (hnd : l.Nodup)
    (ha : a ∈ l) : (l.map (fun n => if a = n then (1 : ℤ) else 0)).sum = 1 := by
  induction l with
  | nil => simp at ha
  | cons b l ih =>
    rw [List.nodup_cons] at hnd
    rcases List.mem_cons.mp ha with rfl | ha'
    · have hz : (l.map (fun n => if a = n then (1 : ℤ) else 0)).sum = 0 := by
        apply List.sum_eq_zero
        intro x hx
        obtain ⟨n, hn, rfl⟩ := List.mem_map.mp hx
        rw [if_neg]
        rintro rfl
        exact hnd.1 hn
      rw [List.map_cons, List.sum_cons, if_pos rfl, hz]
      ring
    · have hab : a ≠ b := by
        rintro rfl
        exact hnd.1 ha'
      simp only [List.map_cons, List.sum_cons, if_neg hab, ih hnd.2 ha']
      ring

theorem sum_indicator_of_not_mem (a : String) (l : List String)
    (ha : a ∉ l) : (l.map (fun n => if a = n then (1 : ℤ) else 0)).sum = 0 := by
  induction l with
  | nil => simp
  | cons b l ih =>
    have hab : a ≠ b := fun h => ha (h ▸ List.mem_cons_self b l)
    simp only [List.map_cons, List.sum_cons, if_neg hab,
      ih (fun h => ha (List.mem_cons_of_mem b h))]
    ring

theorem inflowN_cons (ke : Key × Edge) (E : EdgeMap) (sel : Key → Bool) (n : String) :
    inflowN (ke :: E) sel n =
      inflowN E sel n + (if sel ke.1 && decide (ke.1.2 = n) then 1 else 0) := by
  unfold inflowN
  rw [List.countP_cons]
  push_cast
  ring

theorem outflowN_cons (ke : Key × Edge) (E : EdgeMap) (sel : Key → Bool) (n : String) :
    outflowN (ke :: E) sel n =
      outflowN E sel n + (if sel ke.1 && decide (ke.1.1 = n) then 1 else 0) := by
  unfold outflowN
  rw [List.countP_cons]
  push_cast
  ring

theorem netSum_cons (nodes : List String) (ke : Key × Edge) (E : EdgeMap)
    (sel : Key → Bool) :
    netSum nodes (ke :: E) sel = netSum nodes E sel +
      (if sel ke.1 then
        (nodes.map (fun n => if ke.1.1 = n then (1 : ℤ) else 0)).sum -
        (nodes.map (fun n => if ke.1.2 = n then (1 : ℤ) else 0)).sum
       else 0) := by
  unfold netSum
  have h1 : (nodes.map (fun n => outflowN (ke :: E) sel n - inflowN (ke :: E) sel n)).sum =
      (nodes.map (fun n => (outflowN E sel n - inflowN E sel n) +
        ((if sel ke.1 && decide (ke.1.1 = n) then 1 else 0) -
         (if sel ke.1 && decide (ke.1.2 = n) then 1 else 0)))).sum := by
    congr 1
    apply List.map_congr_left
    intro n _
    rw [inflowN_cons, outflowN_cons]
    ring
  rw [h1, sum_map_add_int]
  congr 1
  cases hsel : sel ke.1 with
  | true =>
    simp only [hsel, Bool.true_and, if_pos]
    have h2 : (nodes.map (fun n =>
        (if decide (ke.1.1 = n) then (1:ℤ) else 0) - (if decide (ke.1.2 = n) then 1 else 0))).sum =
        (nodes.map (fun n => (if ke.1.1 = n then (1:ℤ) else 0) + -(if ke.1.2 = n then 1 else 0))).sum := by
      congr 1
      apply List.map_congr_left
      intro n _
      simp only [decide_eq_true_eq]
      ring
    rw [h2, sum_map_add_int, sum_map_neg_int]
    ring
  | false =>
    simp only [hsel, Bool.false_and, if_neg Bool.false_ne_true]
    rw [List.sum_eq_zero]
    intro x hx
    obtain ⟨n, _, rfl⟩ := List.mem_map.mp hx
    ring

theorem netSum_eq_zero (nodes : List String) (edges : EdgeMap) (sel : Key → Bool)
    (hnd : nodes.Nodup)
    (hend : ∀ ke ∈ edges, ke.1.1 ∈ nodes ∧ ke.1.2 ∈ nodes) :
    netSum nodes edges sel = 0 := by
  induction edges with
  | nil =>
    unfold netSum
    rw [List.sum_eq_zero]
    intro x hx
    obtain ⟨n, _, rfl⟩ := List.mem_map.mp hx
    unfold inflowN outflowN
    simp [List.countP_nil]
  | cons ke E ih =>
    rw [netSum_cons, ih (fun k hk => hend k (List.mem_cons_of_mem ke hk))]
    have h1 := hend ke (List.mem_cons_self ke E)
    rw [sum_indicator_of_mem ke.1.1 nodes hnd h1.1,
      sum_indicator_of_mem ke.1.2 nodes hnd h1.2]
    simp

theorem netSum_of_feasible_start_absent (nodes : List String) (edges : EdgeMap)
    (start end_ : String) (via : List String) (sel : Key → Bool)
    (hf : PathFeasible nodes edges start end_ via sel)
    (hnd : nodes.Nodup) (hs : start ∉ nodes) (he : end_ ∈ nodes) :
    netSum nodes edges sel = -1 := by
  unfold netSum
  have h1 : (nodes.map (fun n => outflowN edges sel n - inflowN edges sel n)).sum =
      (nodes.map (fun n => -(if end_ = n then (1 : ℤ) else 0))).sum := by
    congr 1
    apply List.map_congr_left
    intro n hn
    have hns : n ≠ start := fun h => hs (h ▸ hn)
    have := hf.1 n hn
    rw [if_neg hns] at this
    by_cases hne : n = end_
    · rw [if_pos hne] at this
      rw [if_pos hne.symm]
      omega
    · rw [if_neg hne] at this
      rw [if_neg (fun h => hne h.symm)]
      omega
  rw [h1, sum_map_neg_int, sum_indicator_of_mem end_ nodes hnd he]

theorem netSum_of_feasible_end_absent (nodes : List String) (edges : EdgeMap)
    (start end_ : String) (via : List String) (sel : Key → Bool)
    (hf : PathFeasible nodes edges start end_ via sel)
    (hnd : nodes.Nodup) (hs : start ∈ nodes) (he : end_ ∉ nodes) :
    netSum nodes edges sel = 1 := by
  unfold netSum
  have h1 : (nodes.map (fun n => outflowN edges sel n - inflowN edges sel n)).sum =
      (nodes.map (fun n => if start = n then (1 : ℤ) else 0)).sum := by
    congr 1
    apply List.map_congr_left
    intro n hn
    have hne : n ≠ end_ := fun h => he (h ▸ hn)
    have := hf.1 n hn
    by_cases hns : n = start
    · rw [if_pos hns] at this
      rw [if_pos hns.symm]
      omega
    · rw [if_neg hns, if_neg hne] at this
      rw [if_neg (fun h => hns h.symm)]
      omega
  rw [h1, sum_indicator_of_mem start nodes hnd hs]

/-- When exactly one of start/end is missing from the node dict (and every
edge endpoint is a node, as `/upload` guarantees), the flow-conservation
system is unsatisfiable, so a sound solver reports non-optimal status. -/
theorem absent_endpoint_infeasible (nodes : List String) (edges : EdgeMap)
    (start end_ : String) (via : List String) (sel : Key → Bool)
    (hnd : nodes.Nodup)
    (hend : ∀ ke ∈ edges, ke.1.1 ∈ nodes ∧ ke.1.2 ∈ nodes)
    (habs : (start ∉ nodes ∧ end_ ∈ nodes) ∨ (start ∈ nodes ∧ end_ ∉ nodes)) :
    ¬ PathFeasible nodes edges start end_ via sel := by
  intro hf
  have h0 := netSum_eq_zero nodes edges sel hnd hend
  rcases habs with ⟨hs, he⟩ | ⟨hs, he⟩
  · have := netSum_of_feasible_start_absent nodes edges start end_ via sel hf hnd hs he
    omega
  · have := netSum_of_feasible_end_absent nodes edges start end_ via sel hf hnd hs he
    omega

theorem optimize_none (nodes : List String) (edges : EdgeMap) (start end_ : String)
    (objective : String) (via : List String) :
    optimize nodes edges start end_ objective via none = [] := rfl

theorem PathFeasible_empty_sel (nodes : List String) (edges : EdgeMap)
    (start end_ : String) (hs : start ∉ nodes) (he : end_ ∉ nodes) :
    PathFeasible nodes edges start end_ [] (fun _ => false) := by
  constructor
  · intro n hn
    have h1 : n ≠ start := fun h => hs (h ▸ hn)
    have h2 : n ≠ end_ := fun h => he (h ▸ hn)
    rw [if_neg h1, if_neg h2]
    unfold inflowN outflowN
    simp
  · intro v hv
    simp at hv

theorem objVal_empty_sel (objective : String) (edges : EdgeMap) :
    objVal objective edges (fun _ => false) = 0 := by
  unfold objVal
  simp

/-- Claim C8: the route extraction is total — a failed solve and a
non-optimal status (both modelled by solver outcome `none`) return the empty
route rather than raising; an infeasible constraint system forces a sound
solver to report non-optimal status, hence the empty route; a missing start
or end node makes the system infeasible (empty route) — when both are
missing the empty selection is optimal whenever all edge weights are
positive, so an optimal solve again returns the empty route; and every
result is sorted by the (origin, destination) key. -/
theorem claim_C8 (nodes : List String) (edges : EdgeMap) (start end_ objective : String)
    (via : List String) (solverOut : Option (Key → Bool))
    (hsound : ∀ sel, solverOut = some sel → PathFeasible nodes edges start end_ via sel)
    (hopt : ∀ sel, solverOut = some sel →
      PathOptimal nodes edges start end_ objective via sel) :
    optimize nodes edges start end_ objective via none = [] ∧
    List.Sorted edgeLe (optimize nodes edges start end_ objective via solverOut) ∧
    ((¬ ∃ sel, PathFeasible nodes edges start end_ via sel) →
      optimize nodes edges start end_ objective via solverOut = []) ∧
    (nodes.Nodup → (∀ ke ∈ edges, ke.1.1 ∈ nodes ∧ ke.1.2 ∈ nodes) →
      ((start ∉ nodes ∧ end_ ∈ nodes) ∨ (start ∈ nodes ∧ end_ ∉ nodes)) →
      optimize nodes edges start end_ objective via solverOut = []) ∧
    (start ∉ nodes → end_ ∉ nodes → via = [] →
      (∀ ke ∈ edges, 0 < edgeWeight objective ke.2) →
      optimize nodes edges start end_ objective via solverOut = []) := by
  refine ⟨rfl, ?_, ?_, ?_, ?_⟩
  · cases solverOut with
    | none => simp [optimize]
    | some sel => exact List.sorted_insertionSort edgeLe _
  · intro hno
    cases solverOut with
    | none => rfl
    | some sel => exact absurd ⟨sel, hsound sel rfl⟩ hno
  · intro hnd hend habs
    cases solverOut with
    | none => rfl
    | some sel =>
      exact absurd (hsound sel rfl)
        (absent_endpoint_infeasible nodes edges start end_ via sel hnd hend habs)
  · intro hs he hvia hw
    cases solverOut with
    | none => rfl
    | some sel =>
      have hopt' := hopt sel rfl
      subst hvia
      have hle : objVal objective edges sel ≤ 0 := by
        have := hopt'.2 (fun _ => false) (PathFeasible_empty_sel nodes edges start end_ hs he)
        rwa [objVal_empty_sel] at this
      have hempty : edges.filter (fun ke => sel ke.1) = [] := by
        by_contra hne
        have hpos : 0 < objVal objective edges sel := by
          unfold objVal
          apply List.sum_pos
          · intro x hx
            obtain ⟨ke, hke, rfl⟩ := List.mem_map.mp hx
            exact hw ke (List.mem_of_mem_filter hke)
          · simpa using hne
        exact absurd (lt_of_lt_of_le hpos hle) (lt_irrefl 0)
      show List.insertionSort edgeLe ((edges.filter (fun ke => sel ke.1)).map Prod.snd) = []
      rw [hempty]
      rfl

/-- Claim C6: whenever the solver returns an (optimal, hence feasible)
selection, the returned path contains exactly one edge into each requested
via node — the via constraint `inflow == 1` transfers through extraction,
mapping and sorting; when the constraint system cannot be satisfied, a sound
solver reports non-optimal status and the result is the empty route.
`hkeys` records the `/upload` invariant that an edge dict stored under key
(i, j) has `"from" = i` and `"to" = j`. -/
theorem claim_C6 (nodes : List String) (edges : EdgeMap) (start end_ objective : String)
    (via : List String) (solverOut : Option (Key → Bool))
    (hkeys : ∀ ke ∈ edges, ke.2.fromCity = ke.1.1 ∧ ke.2.toCity = ke.1.2)
    (hsound : ∀ sel, solverOut = some sel → PathFeasible nodes edges start end_ via sel) :
    (∀ sel, solverOut = some sel → ∀ v ∈ via,
      (optimize nodes edges start end_ objective via solverOut).countP
        (fun e => decide (e.toCity = v)) = 1) ∧
    ((¬ ∃ sel, PathFeasible nodes edges start end_ via sel) ∨ solverOut = none →
      optimize nodes edges start end_ objective via solverOut = []) := by
  constructor
  · intro sel hs v hv
    rw [hs]
    show (List.insertionSort edgeLe ((edges.filter (fun ke => sel ke.1)).map Prod.snd)).countP
      (fun e => decide (e.toCity = v)) = 1
    rw [(List.perm_insertionSort edgeLe
      ((edges.filter (fun ke => sel ke.1)).map Prod.snd)).countP_eq,
      List.countP_map, List.countP_filter]
    have hcong : edges.countP
        (fun ke => ((fun e => decide (e.toCity = v)) ∘ Prod.snd) ke && sel ke.1) =
        edges.countP (fun ke => sel ke.1 && decide (ke.1.2 = v)) := by
      apply List.countP_congr
      intro ke hke
      simp only [Function.comp_apply, (hkeys ke hke).2, Bool.and_comm]
    rw [hcong]
    have hin := (hsound sel hs).2 v hv
    unfold inflowN at hin
    omega
  · intro h
    cases h with
    | inr h => rw [h]; rfl
    | inl h =>
      cases solverOut with
      | none => rfl
      | some sel => exact absurd ⟨sel, hsound sel rfl⟩ h

/-- Witness for C8: on a concrete graph whose node dict lacks the requested
start node, the optimizer returns the empty route. -/
theorem claim_C8_witness :
    (["a", "b"] : List String).Nodup ∧ ("zz" ∉ (["a", "b"] : List String)) ∧
    optimize ["a", "b"] [(("a", "b"), edgeAB)] "zz" "b" "cost" [] none = [] := by
  refine ⟨by decide, by decide, ?_⟩
  exact (claim_C8 ["a", "b"] [(("a", "b"), edgeAB)] "zz" "b" "cost" [] none
    (fun sel h => Option.noConfusion h) (fun sel h => Option.noConfusion h)).2.2.2.1
    (by decide) (by decide) (Or.inl ⟨by decide, by decide⟩)

/-- Witness for C6: on the concrete path a → b → c with via node b, the
returned route has exactly one edge into b. -/
theorem claim_C6_witness :
    (optimize ["a", "b", "c"] [(("a", "b"), edgeAB), (("b", "c"), edgeBC)]
      "a" "c" "cost" ["b"] (some (fun _ => true))).countP
      (fun e => decide (e.toCity = "b")) = 1 := by
  refine (claim_C6 ["a", "b", "c"] [(("a", "b"), edgeAB), (("b", "c"), edgeBC)]
    "a" "c" "cost" ["b"] (some (fun _ => true)) (by decide) ?_).1
    (fun _ => true) rfl "b" (by decide)
  intro sel h
  injection h with h'
  subst h'
  unfold PathFeasible
  decide

/-! ## Lemmas about the Capacity Allocator -/

theorem assignLoop_cons_pos (leg : Edge) (sel : ℕ → Bool) (v : Vehicle)
    (vs : List Vehicle) (i : ℕ) (r : ℚ) (hsel : sel i = true) (hr : 0 < r) :
    assignLoop leg sel (v :: vs) i r =
      mkEntry leg v (min v.capacity_kg r) ::
        assignLoop leg sel vs (i + 1) (r - min v.capacity_kg r) := by
  simp only [assignLoop]
  rw [if_pos ⟨hsel, hr⟩]

theorem assignLoop_cons_neg (leg : Edge) (sel : ℕ → Bool) (v : Vehicle)
    (vs : List Vehicle) (i : ℕ) (r : ℚ) (h : ¬ (sel i = true ∧ 0 < r)) :
    assignLoop leg sel (v :: vs) i r = assignLoop leg sel vs (i + 1) r := by
  simp only [assignLoop]
  rw [if_neg h]

theorem assignLoop_nonpos (leg : Edge) (sel : ℕ → Bool) (vs : List Vehicle)
    (i : ℕ) (r : ℚ) (hr : r ≤ 0) : assignLoop leg sel vs i r = [] := by
  induction vs generalizing i with
  | nil => rfl
  | cons v vs ih =>
    rw [assignLoop_cons_neg leg sel v vs i r (fun hc => absurd hr (not_le.mpr hc.2))]
    exact ih (i + 1)

theorem mkEntry_load_raw (leg : Edge) (v : Vehicle) (load : ℚ) :
    (mkEntry leg v load).load_raw = load := rfl

theorem mkEntry_capacity (leg : Edge) (v : Vehicle) (load : ℚ) :
    (mkEntry leg v load).capacity_kg = v.capacity_kg := rfl

/-- The extraction loop allocates `min(goods, total capacity of the listed
vehicles)` in total: the recorded (pre-rounding) loads sum to the cargo
remaining at entry capped by the capacities of the vehicles that made it
into the output list. -/
theorem assignLoop_sum_eq_min_listed (leg : Edge) (sel : ℕ → Bool) :
    ∀ (vs : List Vehicle) (i : ℕ) (r : ℚ), 0 ≤ r →
      ((assignLoop leg sel vs i r).map (fun e => e.load_raw)).sum =
        min r (((assignLoop leg sel vs i r).map (fun e => e.capacity_kg)).sum) := by
  intro vs
  induction vs with
  | nil =>
    intro i r hr
    simp only [assignLoop, List.map_nil, List.sum_nil]
    rw [min_eq_right hr]
  | cons v vs ih =>
    intro i r hr
    by_cases hc : sel i = true ∧ 0 < r
    · rw [assignLoop_cons_pos leg sel v vs i r hc.1 hc.2]
      rcases le_or_lt r v.capacity_kg with hcr | hcr
      · have hload : min v.capacity_kg r = r := min_eq_right hcr
        rw [hload]
        have hrest : assignLoop leg sel vs (i + 1) (r - r) = [] :=
          assignLoop_nonpos leg sel vs (i + 1) (r - r) (by linarith)
        rw [hrest]
        simp only [List.map_cons, List.map_nil, List.sum_cons, List.sum_nil,
          mkEntry_load_raw, mkEntry_capacity, add_zero]
        rw [min_eq_left hcr]
      · have hload : min v.capacity_kg r = v.capacity_kg := min_eq_left hcr.le
        rw [hload]
        have hrec := ih (i + 1) (r - v.capacity_kg) (by linarith)
        simp only [List.map_cons, List.sum_cons, mkEntry_load_raw, mkEntry_capacity]
        rw [hrec]
        have hr' : v.capacity_kg + (r - v.capacity_kg) = r := by ring
        rw [← min_add_add_left, hr']
    · rw [assignLoop_cons_neg leg sel v vs i r hc]
      exact ih (i + 1) r hr

theorem selCapSum_nonneg (sel : ℕ → Bool) (vs : List Vehicle) (i : ℕ)
    (h : ∀ v ∈ vs, 0 ≤ v.capacity_kg) : 0 ≤ selCapSum sel vs i := by
  induction vs generalizing i with
  | nil => simp [selCapSum]
  | cons v vs ih =>
    have h1 := h v (List.mem_cons_self v vs)
    have h2 := ih (i + 1) (fun w hw => h w (List.mem_cons_of_mem v hw))
    simp only [selCapSum]
    by_cases hsel : sel i = true
    · rw [if_pos hsel]; linarith
    · rw [if_neg hsel]; linarith

/-- The loop allocates `min(goods, selected capacity)` in total; in
particular, when the LP covering constraint holds it allocates exactly the
cargo weight. -/
theorem assignLoop_sum_eq_min_selected (leg : Edge) (sel : ℕ → Bool) :
    ∀ (vs : List Vehicle) (i : ℕ) (r : ℚ), 0 ≤ r →
      (∀ v ∈ vs, 0 ≤ v.capacity_kg) →
      ((assignLoop leg sel vs i r).map (fun e => e.load_raw)).sum =
        min r (selCapSum sel vs i) := by
  intro vs
  induction vs with
  | nil =>
    intro i r hr _
    simp only [assignLoop, List.map_nil, List.sum_nil, selCapSum]
    rw [min_eq_right hr]
  | cons v vs ih =>
    intro i r hr hcap
    have hcap1 := hcap v (List.mem_cons_self v vs)
    have hcap2 : ∀ w ∈ vs, 0 ≤ w.capacity_kg :=
      fun w hw => hcap w (List.mem_cons_of_mem v hw)
    have hK := selCapSum_nonneg sel vs (i + 1) hcap2
    by_cases hsel : sel i = true
    · simp only [selCapSum, if_pos hsel]
      by_cases hr0 : 0 < r
      · rw [assignLoop_cons_pos leg sel v vs i r hsel hr0]
        rcases le_or_lt r v.capacity_kg with hcr | hcr
        · have hload : min v.capacity_kg r = r := min_eq_right hcr
          rw [hload]
          rw [assignLoop_nonpos leg sel vs (i + 1) (r - r) (by linarith)]
          simp only [List.map_cons, List.map_nil, List.sum_cons, List.sum_nil,
            mkEntry_load_raw, add_zero]
          rw [min_eq_left (by linarith)]
        · have hload : min v.capacity_kg r = v.capacity_kg := min_eq_left hcr.le
          rw [hload]
          simp only [List.map_cons, List.sum_cons, mkEntry_load_raw]
          rw [ih (i + 1) (r - v.capacity_kg) (by linarith) hcap2]
          have hr' : v.capacity_kg + (r - v.capacity_kg) = r := by ring
          rw [← min_add_add_left, hr']
      · have hr00 : r = 0 := le_antisymm (not_lt.mp hr0) hr
        subst hr00
        rw [assignLoop_cons_neg leg sel v vs i 0 (fun hc => hr0 hc.2)]
        rw [assignLoop_nonpos leg sel vs (i + 1) 0 le_rfl]
        simp only [List.map_nil, List.sum_nil]
        rw [min_eq_left (by linarith)]
    · rw [assignLoop_cons_neg leg sel v vs i r (fun hc => hsel hc.1)]
      simp only [selCapSum, if_neg hsel, zero_add]
      exact ih (i + 1) r hr hcap2

/-- Every output entry comes from a listed vehicle via `mkEntry`, carrying
load `min(capacity, remaining)`, hence at most its capacity. -/
theorem assignLoop_mem (leg : Edge) (sel : ℕ → Bool) :
    ∀ (vs : List Vehicle) (i : ℕ) (r : ℚ) (e : AssignedVehicle),
      e ∈ assignLoop leg sel vs i r →
      ∃ v ∈ vs, e = mkEntry leg v e.load_raw ∧ e.load_raw ≤ v.capacity_kg := by
  intro vs
  induction vs with
  | nil => intro i r e he; simp [assignLoop] at he
  | cons v vs ih =>
    intro i r e he
    by_cases hc : sel i = true ∧ 0 < r
    · rw [assignLoop_cons_pos leg sel v vs i r hc.1 hc.2] at he
      rcases List.mem_cons.mp he with rfl | he'
      · refine ⟨v, List.mem_cons_self v vs, ?_, ?_⟩
        · rw [mkEntry_load_raw]
        · rw [mkEntry_load_raw]; exact min_le_left _ _
      · obtain ⟨w, hw, hww⟩ := ih (i + 1) (r - min v.capacity_kg r) e he'
        exact ⟨w, List.mem_cons_of_mem v hw, hww⟩
    · rw [assignLoop_cons_neg leg sel v vs i r hc] at he
      obtain ⟨w, hw, hww⟩ := ih (i + 1) r e he
      exact ⟨w, List.mem_cons_of_mem v hw, hww⟩

/-- Specification of the running `last_arrival` maximum. -/
theorem lastArrivalFold_spec :
    ∀ (l : List AssignedVehicle) (acc : Option ℚ) (m : ℚ),
      lastArrivalFold l acc = some m →
      (∀ e ∈ l, e.arrival_dt ≤ m) ∧
      (m ∈ l.map (fun e => e.arrival_dt) ∨ acc = some m) ∧
      (∀ b, acc = some b → b ≤ m) := by
  intro l
  induction l with
  | nil =>
    intro acc m h
    refine ⟨by simp, Or.inr h, ?_⟩
    intro b hb
    rw [hb] at h
    injection h with h'
    exact le_of_eq h'
  | cons e rest ih =>
    intro acc m h
    cases acc with
    | none =>
      simp only [lastArrivalFold] at h
      obtain ⟨hb, hmem, hacc⟩ := ih (some e.arrival_dt) m h
      have he : e.arrival_dt ≤ m := hacc e.arrival_dt rfl
      refine ⟨?_, ?_, ?_⟩
      · intro x hx
        rcases List.mem_cons.mp hx with rfl | hx'
        · exact he
        · exact hb x hx'
      · rcases hmem with hm | hm
        · exact Or.inl (List.mem_cons_of_mem _ hm)
        · injection hm with hm'
          exact Or.inl (by rw [List.map_cons, ← hm']; exact List.mem_cons_self _ _)
      · intro b hb'
        exact absurd hb' (by simp)
    | some b =>
      simp only [lastArrivalFold] at h
      by_cases hlt : b < e.arrival_dt
      · rw [if_pos hlt] at h
        obtain ⟨hb, hmem, hacc⟩ := ih (some e.arrival_dt) m h
        have he : e.arrival_dt ≤ m := hacc e.arrival_dt rfl
        refine ⟨?_, ?_, ?_⟩
        · intro x hx
          rcases List.mem_cons.mp hx with rfl | hx'
          · exact he
          · exact hb x hx'
        · rcases hmem with hm | hm
          · exact Or.inl (List.mem_cons_of_mem _ hm)
          · injection hm with hm'
            exact Or.inl (by rw [List.map_cons, ← hm']; exact List.mem_cons_self _ _)
        · intro b0 hb0
          injection hb0 with hb0'
          subst hb0'
          linarith [he]
      · rw [if_neg hlt] at h
        obtain ⟨hb, hmem, hacc⟩ := ih (some b) m h
        have hbm : b ≤ m := hacc b rfl
        have he : e.arrival_dt ≤ m := le_trans (not_lt.mp hlt) hbm
        refine ⟨?_, ?_, ?_⟩
        · intro x hx
          rcases List.mem_cons.mp hx with rfl | hx'
          · exact he
          · exact hb x hx'
        · rcases hmem with hm | hm
          · exact Or.inl (List.mem_cons_of_mem _ hm)
          · exact Or.inr hm
        · intro b0 hb0
          injection hb0 with hb0'
          subst hb0'
          exact hbm

theorem lastArrivalFold_ne_none :
    ∀ (l : List AssignedVehicle) (b : ℚ), lastArrivalFold l (some b) ≠ none := by
  intro l
  induction l with
  | nil => intro b h; exact Option.noConfusion h
  | cons e rest ih =>
    intro b
    simp only [lastArrivalFold]
    by_cases hlt : b < e.arrival_dt
    · rw [if_pos hlt]; exact ih _
    · rw [if_neg hlt]; exact ih _

theorem selCapSum_all_true (vs : List Vehicle) (i : ℕ) :
    selCapSum (fun _ => true) vs i = (vs.map (fun v => v.capacity_kg)).sum := by
  induction vs generalizing i with
  | nil => simp [selCapSum]
  | cons v vs ih => simp [selCapSum, ih]

theorem selCapSum_all_false (vs : List Vehicle) (i : ℕ) :
    selCapSum (fun _ => false) vs i = 0 := by
  induction vs generalizing i with
  | nil => simp [selCapSum]
  | cons v vs ih => simp [selCapSum, ih]

/-- Unfolding of `assign_vehicles_for_leg` on a successful solve with a
non-empty origin pool. -/
theorem assign_vehicles_some (vehicles : List Vehicle) (leg : Edge) (goods : ℚ)
    (objective : String) (sel : ℕ → Bool)
    (hne : vehiclesAt vehicles leg.fromCity ≠ []) :
    assign_vehicles_for_leg vehicles leg goods objective (some sel) =
      some { fromCity := leg.fromCity, toCity := leg.toCity,
             vehicles := assignLoop leg sel (vehiclesAt vehicles leg.fromCity) 0 goods,
             leg_distance := leg.distance, leg_time := leg.time,
             last_arrival_dt :=
               lastArrivalFold (assignLoop leg sel (vehiclesAt vehicles leg.fromCity) 0 goods) none,
             last_arrival :=
               (lastArrivalFold (assignLoop leg sel (vehiclesAt vehicles leg.fromCity) 0 goods)
                 none).map formatHHMM } := by
  unfold assign_vehicles_for_leg
  rw [if_neg hne]

/-- Every possible shape of a successful `assign_vehicles_for_leg` call. -/
theorem assign_vehicles_inv (vehicles : List Vehicle) (leg : Edge) (goods : ℚ)
    (objective : String) (solverOut : Option (ℕ → Bool)) (a : Assignment)
    (ha : assign_vehicles_for_leg vehicles leg goods objective solverOut = some a) :
    ∃ sel, solverOut = some sel ∧ vehiclesAt vehicles leg.fromCity ≠ [] ∧
      a = { fromCity := leg.fromCity, toCity := leg.toCity,
            vehicles := assignLoop leg sel (vehiclesAt vehicles leg.fromCity) 0 goods,
            leg_distance := leg.distance, leg_time := leg.time,
            last_arrival_dt :=
              lastArrivalFold (assignLoop leg sel (vehiclesAt vehicles leg.fromCity) 0 goods) none,
            last_arrival :=
              (lastArrivalFold (assignLoop leg sel (vehiclesAt vehicles leg.fromCity) 0 goods)
                none).map formatHHMM } := by
  unfold assign_vehicles_for_leg at ha
  by_cases hne : vehiclesAt vehicles leg.fromCity = []
  · rw [if_pos hne] at ha
    exact Option.noConfusion ha
  · rw [if_neg hne] at ha
    cases solverOut with
    | none => exact Option.noConfusion ha
    | some sel =>
      refine ⟨sel, rfl, hne, ?_⟩
      injection ha with ha'
      exact ha'.symm

/-- Claim C1 (amended): for a non-empty Assignment the invariant holds for
the pre-rounding loads `load` of the extraction loop: they sum to
min(cargo, sum of the assigned vehicles' capacities) and none exceeds its
vehicle's capacity; the recorded `load_kg` is that load rounded to two
decimals (so the recorded values can deviate by the rounding, see the
counterexample). -/
theorem claim_C1_amended (vehicles : List Vehicle) (leg : Edge) (goods : ℚ)
    (objective : String) (solverOut : Option (ℕ → Bool)) (a : Assignment)
    (ha : assign_vehicles_for_leg vehicles leg goods objective solverOut = some a)
    (hne : a.vehicles ≠ []) :
    (a.vehicles.map (fun e => e.load_raw)).sum =
      min goods ((a.vehicles.map (fun e => e.capacity_kg)).sum) ∧
    (∀ e ∈ a.vehicles, e.load_raw ≤ e.capacity_kg ∧ e.load_kg = round2 e.load_raw) := by
  obtain ⟨sel, hsel, hpool, rfl⟩ := assign_vehicles_inv vehicles leg goods objective solverOut a ha
  constructor
  · have hg : 0 ≤ goods := by
      by_contra hneg
      exact hne (assignLoop_nonpos leg sel _ 0 goods (le_of_not_le fun hc => hneg (by linarith)))
    exact assignLoop_sum_eq_min_listed leg sel _ 0 goods hg
  · intro e he
    obtain ⟨v, _, hev, hle⟩ := assignLoop_mem leg sel _ 0 goods e he
    constructor
    · rw [hev, mkEntry_capacity, mkEntry_load_raw]
      rw [hev, mkEntry_load_raw] at hle
      exact hle
    · rw [hev]
      rfl

/-- Claim C2 (amended): when the total capacity at the leg's origin covers a
positive cargo, the allocator succeeds and the pre-rounding loads sum to
exactly the cargo weight (the recorded `load_kg` values are those loads
rounded to two decimals). -/
theorem claim_C2_amended (vehicles : List Vehicle) (leg : Edge) (goods : ℚ)
    (objective : String) (solverOut : Option (ℕ → Bool))
    (hgoods : 0 < goods)
    (hcap : ∀ v ∈ vehicles, 0 < v.capacity_kg)
    (htotal : goods ≤ ((vehiclesAt vehicles leg.fromCity).map (fun v => v.capacity_kg)).sum)
    (hsound : ∀ sel, solverOut = some sel → VehFeasible vehicles leg goods sel)
    (hcomplete : (∃ sel, VehFeasible vehicles leg goods sel) → solverOut ≠ none) :
    ∃ a, assign_vehicles_for_leg vehicles leg goods objective solverOut = some a ∧
      (a.vehicles.map (fun e => e.load_raw)).sum = goods ∧
      (∀ e ∈ a.vehicles, e.load_kg = round2 e.load_raw) := by
  have hcap' : ∀ v ∈ vehiclesAt vehicles leg.fromCity, 0 ≤ v.capacity_kg :=
    fun v hv => (hcap v (List.mem_of_mem_filter hv)).le
  have hfeas : ∃ sel, VehFeasible vehicles leg goods sel := by
    refine ⟨fun _ => true, ?_⟩
    unfold VehFeasible
    rw [selCapSum_all_true]
    exact htotal
  obtain ⟨sel, hsel⟩ := Option.ne_none_iff_exists'.mp (hcomplete hfeas)
  subst hsel
  have hne : vehiclesAt vehicles leg.fromCity ≠ [] := by
    intro h0
    rw [h0] at htotal
    simp at htotal
    linarith
  refine ⟨_, assign_vehicles_some vehicles leg goods objective sel hne, ?_, ?_⟩
  · have hfs := hsound sel rfl
    unfold VehFeasible at hfs
    have := assignLoop_sum_eq_min_selected leg sel (vehiclesAt vehicles leg.fromCity) 0 goods
      hgoods.le hcap'
    rw [this, min_eq_left hfs]
  · intro e he
    obtain ⟨v, _, hev, _⟩ := assignLoop_mem leg sel _ 0 goods e he
    rw [hev]
    rfl

/-- Claim C9: with at least one vehicle at the origin and non-positive
cargo, the LP is trivially feasible (select nothing), the extraction loop
appends no vehicle (`remaining > 0` never holds), and the call returns a
successful Assignment with an empty vehicle list and `last_arrival = None`. -/
theorem claim_C9 (vehicles : List Vehicle) (leg : Edge) (goods : ℚ)
    (objective : String) (solverOut : Option (ℕ → Bool))
    (hne : vehiclesAt vehicles leg.fromCity ≠ [])
    (hgoods : goods ≤ 0)
    (hcomplete : (∃ sel, VehFeasible vehicles leg goods sel) → solverOut ≠ none) :
    ∃ a, assign_vehicles_for_leg vehicles leg goods objective solverOut = some a ∧
      a.vehicles = [] ∧ a.last_arrival = none ∧ a.last_arrival_dt = none := by
  have hfeas : ∃ sel, VehFeasible vehicles leg goods sel := by
    refine ⟨fun _ => false, ?_⟩
    unfold VehFeasible
    rw [selCapSum_all_false]
    exact hgoods
  obtain ⟨sel, hsel⟩ := Option.ne_none_iff_exists'.mp (hcomplete hfeas)
  subst hsel
  have hloop : assignLoop leg sel (vehiclesAt vehicles leg.fromCity) 0 goods = [] :=
    assignLoop_nonpos leg sel _ 0 goods hgoods
  refine ⟨_, assign_vehicles_some vehicles leg goods objective sel hne, ?_, ?_, ?_⟩
  · exact hloop
  · simp only [hloop]
    rfl
  · simp only [hloop]
    rfl

/-- Claim C7: each assigned vehicle's schedule is derived exactly as the
source computes it — departure is the parsed configured time or the 08:00
fallback, the arrival instant is departure plus `distance / speed`, the
reported travel time and cost are the rounded `distance / speed` and
`cost_per_km * distance` — and the leg's `last_arrival` is the maximum
arrival instant among the assigned vehicles, reported via `formatHHMM`. -/
theorem claim_C7 (vehicles : List Vehicle) (leg : Edge) (goods : ℚ)
    (objective : String) (solverOut : Option (ℕ → Bool)) (a : Assignment)
    (ha : assign_vehicles_for_leg vehicles leg goods objective solverOut = some a) :
    (∀ e ∈ a.vehicles, ∃ v ∈ vehiclesAt vehicles leg.fromCity,
      e.dep_dt = parseDeparture v.departure_time ∧
      e.departure = formatHHMM e.dep_dt ∧
      e.arrival_dt = e.dep_dt + leg.distance / v.speed_kmph ∧
      e.arrival = formatHHMM e.arrival_dt ∧
      e.travel_time_hours = round2 (leg.distance / v.speed_kmph) ∧
      e.fuel_cost = round2 (v.cost_per_km * leg.distance) ∧
      e.distance = round2 leg.distance) ∧
    (∀ m, a.last_arrival_dt = some m →
      (∀ e ∈ a.vehicles, e.arrival_dt ≤ m) ∧ m ∈ a.vehicles.map (fun e => e.arrival_dt)) ∧
    (a.vehicles ≠ [] → a.last_arrival_dt ≠ none) ∧
    a.last_arrival = a.last_arrival_dt.map formatHHMM := by
  obtain ⟨sel, hsel, hpool, rfl⟩ := assign_vehicles_inv vehicles leg goods objective solverOut a ha
  refine ⟨?_, ?_, ?_, rfl⟩
  · intro e he
    obtain ⟨v, hv, hev, _⟩ := assignLoop_mem leg sel _ 0 goods e he
    refine ⟨v, hv, ?_, ?_, ?_, ?_, ?_, ?_, ?_⟩ <;> rw [hev] <;> rfl
  · intro m hm
    obtain ⟨hb, hmem, _⟩ := lastArrivalFold_spec _ none m hm
    refine ⟨hb, ?_⟩
    rcases hmem with h | h
    · exact h
    · exact Option.noConfusion h
  · intro hne
    cases hl : assignLoop leg sel (vehiclesAt vehicles leg.fromCity) 0 goods with
    | nil => exact absurd hl hne
    | cons e rest =>
      show lastArrivalFold (e :: rest) none ≠ none
      simp only [lastArrivalFold]
      exact lastArrivalFold_ne_none rest e.arrival_dt

/-- Reported clock strings depend only on the instant modulo 24 hours:
`formatHHMM` of an instant equals `formatHHMM` of its wrapped time of day. -/
theorem formatHHMM_wrap24 (t : ℚ) : formatHHMM (wrap24 t) = formatHHMM t := by
  unfold formatHHMM wrap24
  have hcast : (t - 24 * ⌊t / 24⌋) * 60 = t * 60 - ((1440 * ⌊t / 24⌋ : ℤ) : ℚ) := by
    push_cast
    ring
  have h1 : ⌊(t - 24 * ⌊t / 24⌋) * 60⌋ = ⌊t * 60⌋ - 1440 * ⌊t / 24⌋ := by
    rw [hcast, Int.floor_sub_int]
  rw [h1]
  have h2 : (⌊t * 60⌋ - 1440 * ⌊t / 24⌋) / 60 % 24 = ⌊t * 60⌋ / 60 % 24 := by
    omega
  have h3 : (⌊t * 60⌋ - 1440 * ⌊t / 24⌋) % 60 = ⌊t * 60⌋ % 60 := by
    omega
  rw [h2, h3]

/-- Claim C10 (reporting semantics): the reported departure and arrival of
every assigned vehicle are the wrapped (modulo 24 h) clock renderings of the
underlying instants, while the `last_arrival` choice maximises over the
unwrapped arrival instants; the reported `last_arrival` is the wrapped
rendering of that maximum.  A vehicle whose trip crosses midnight therefore
reads an arrival earlier than its departure (see the witness). -/
theorem claim_C10 (vehicles : List Vehicle) (leg : Edge) (goods : ℚ)
    (objective : String) (solverOut : Option (ℕ → Bool)) (a : Assignment)
    (ha : assign_vehicles_for_leg vehicles leg goods objective solverOut = some a) :
    (∀ e ∈ a.vehicles,
      e.arrival = formatHHMM (wrap24 e.arrival_dt) ∧
      e.departure = formatHHMM (wrap24 e.dep_dt)) ∧
    (∀ m, a.last_arrival_dt = some m →
      (∀ e ∈ a.vehicles, e.arrival_dt ≤ m) ∧
      m ∈ a.vehicles.map (fun e => e.arrival_dt) ∧
      a.last_arrival = some (formatHHMM (wrap24 m))) := by
  obtain ⟨sel, hsel, hpool, rfl⟩ := assign_vehicles_inv vehicles leg goods objective solverOut a ha
  constructor
  · intro e he
    obtain ⟨v, _, hev, _⟩ := assignLoop_mem leg sel _ 0 goods e he
    rw [formatHHMM_wrap24, formatHHMM_wrap24, hev]
    exact ⟨rfl, rfl⟩
  · intro m hm
    obtain ⟨hb, hmem, _⟩ := lastArrivalFold_spec _ none m hm
    refine ⟨hb, ?_, ?_⟩
    · rcases hmem with h | h
      · exact h
      · exact Option.noConfusion h
    · show (lastArrivalFold _ none).map formatHHMM = _
      have hm' : lastArrivalFold
          (assignLoop leg sel (vehiclesAt vehicles leg.fromCity) 0 goods) none = some m := hm
      rw [hm', Option.map_some', formatHHMM_wrap24]

/-! ## Lemmas about the Plan Aggregator -/

theorem buildLegs_cons (vehicles : List Vehicle) (goods : ℚ) (objective : String)
    (leg : Edge) (rest : List Edge) (sels : List (Option (ℕ → Bool))) :
    buildLegs vehicles goods objective (leg :: rest) sels =
      match assign_vehicles_for_leg vehicles leg goods objective (sels.headD none) with
      | none => none
      | some a => (buildLegs vehicles goods objective rest sels.tail).map (a :: ·) := rfl

theorem buildLegs_cons_some (vehicles : List Vehicle) (goods : ℚ) (objective : String)
    (leg : Edge) (rest : List Edge) (sels : List (Option (ℕ → Bool))) (a : Assignment)
    (ha : assign_vehicles_for_leg vehicles leg goods objective (sels.headD none) = some a) :
    buildLegs vehicles goods objective (leg :: rest) sels =
      (buildLegs vehicles goods objective rest sels.tail).map (a :: ·) := by
  rw [buildLegs_cons, ha]

theorem buildLegs_length (vehicles : List Vehicle) (goods : ℚ) (objective : String) :
    ∀ (route : List Edge) (sels : List (Option (ℕ → Bool))) (legs : List Assignment),
      buildLegs vehicles goods objective route sels = some legs →
      legs.length = route.length := by
  intro route
  induction route with
  | nil =>
    intro sels legs h
    injection h with h'
    rw [← h']
    rfl
  | cons leg rest ih =>
    intro sels legs h
    rw [buildLegs_cons] at h
    split at h
    · exact Option.noConfusion h
    · next a ha =>
      cases hb : buildLegs vehicles goods objective rest sels.tail with
      | none =>
        rw [hb] at h
        exact Option.noConfusion h
      | some legs' =>
        rw [hb] at h
        have h2 : some (a :: legs') = some legs := h
        injection h2 with h'
        rw [← h']
        simp [ih sels.tail legs' hb]

theorem optimize_with_capacity_plan_cons (vehicles : List Vehicle) (goods : ℚ)
    (objective : String) (r0 : Edge) (rs : List Edge)
    (sels : List (Option (ℕ → Bool))) :
    optimize_with_capacity_plan vehicles goods objective (r0 :: rs) sels =
      match buildLegs vehicles goods objective (r0 :: rs) sels with
      | none => none
      | some legs =>
        some { total_goods_kg := goods,
               route := (r0 :: rs).map (fun e => e.fromCity) ++
                 [((r0 :: rs).getLast (by simp)).toCity],
               objective := objective,
               legs := legs,
               final_delivery_time :=
                 match legs.getLast? with
                 | some a => a.last_arrival
                 | none => none } := rfl

/-- Inversion of a successful `optimize_with_capacity_plan` call. -/
theorem plan_inv (vehicles : List Vehicle) (goods : ℚ) (objective : String)
    (route : List Edge) (sels : List (Option (ℕ → Bool))) (p : TransportPlan)
    (hp : optimize_with_capacity_plan vehicles goods objective route sels = some p) :
    ∃ (r0 : Edge) (rs : List Edge) (legs : List Assignment),
      route = r0 :: rs ∧
      buildLegs vehicles goods objective (r0 :: rs) sels = some legs ∧
      legs ≠ [] ∧
      p = { total_goods_kg := goods,
            route := (r0 :: rs).map (fun e => e.fromCity) ++
              [((r0 :: rs).getLast (by simp)).toCity],
            objective := objective,
            legs := legs,
            final_delivery_time :=
              match legs.getLast? with
              | some a => a.last_arrival
              | none => none } := by
  cases route with
  | nil => exact Option.noConfusion hp
  | cons r0 rs =>
    rw [optimize_with_capacity_plan_cons] at hp
    split at hp
    · exact Option.noConfusion hp
    · next legs hb =>
      injection hp with hp'
      refine ⟨r0, rs, legs, rfl, hb, ?_, hp'.symm⟩
      intro h0
      have := buildLegs_length vehicles goods objective (r0 :: rs) sels legs hb
      rw [h0] at this
      simp at this

/-- Claim C3: the final delivery time of every successfully built plan is
the `last_arrival` of the last processed leg (the loop overwrites
`final_arrival` on every iteration, so only the last leg's value survives,
not the maximum across legs — see the witness for an instance where the two
differ). -/
theorem claim_C3 (vehicles : List Vehicle) (goods : ℚ) (objective : String)
    (route : List Edge) (sels : List (Option (ℕ → Bool))) (p : TransportPlan)
    (hp : optimize_with_capacity_plan vehicles goods objective route sels = some p) :
    ∃ a, p.legs.getLast? = some a ∧ p.final_delivery_time = a.last_arrival := by
  obtain ⟨r0, rs, legs, hroute, hb, hne, rfl⟩ :=
    plan_inv vehicles goods objective route sels p hp
  cases hl : legs.getLast? with
  | none =>
    rw [List.getLast?_eq_none_iff] at hl
    exact absurd hl hne
  | some a => exact ⟨a, rfl, rfl⟩

theorem route_nodes_of_chain :
    ∀ (r0 : Edge) (rs : List Edge),
      List.Chain' (fun a b => b.fromCity = a.toCity) (r0 :: rs) →
      (r0 :: rs).map (fun e => e.fromCity) ++ [((r0 :: rs).getLast (by simp)).toCity] =
        r0.fromCity :: (r0 :: rs).map (fun e => e.toCity) := by
  intro r0 rs
  induction rs generalizing r0 with
  | nil => intro _; rfl
  | cons r1 rs' ih =>
    intro hchain
    have h1 : r1.fromCity = r0.toCity := (List.chain'_cons.mp hchain).1
    have h2 := ih r1 (List.chain'_cons.mp hchain).2
    have hlast : ((r0 :: r1 :: rs').getLast (by simp)) = ((r1 :: rs').getLast (by simp)) :=
      List.getLast_cons (by simp)
    rw [List.map_cons, List.cons_append, hlast, h2, h1]
    rfl

/-- Claim C4 (amended): the node sequence of a successfully built plan is
each route leg's origin in route order followed by the last leg's
destination; when the route happens to be path-consecutive (each leg starts
where the previous one ends), this equals the start node followed by each
leg's destination.  Because `optimize` returns its edges sorted by
(origin, destination) rather than in path order, the consecutive case is not
guaranteed (see the counterexample). -/
theorem claim_C4_amended (vehicles : List Vehicle) (goods : ℚ) (objective : String)
    (route : List Edge) (sels : List (Option (ℕ → Bool))) (p : TransportPlan)
    (hp : optimize_with_capacity_plan vehicles goods objective route sels = some p) :
    p.route = route.map (fun e => e.fromCity) ++
      (route.getLast?.map (fun e => e.toCity)).toList ∧
    (List.Chain' (fun a b => b.fromCity = a.toCity) route →
      ∀ r0 ∈ route.head?, p.route = r0.fromCity :: route.map (fun e => e.toCity)) := by
  obtain ⟨r0, rs, legs, hroute, hb, hne, rfl⟩ :=
    plan_inv vehicles goods objective route sels p hp
  subst hroute
  constructor
  · show (r0 :: rs).map (fun e => e.fromCity) ++ [((r0 :: rs).getLast (by simp)).toCity] = _
    rw [List.getLast?_eq_getLast (r0 :: rs) (by simp)]
    rfl
  · intro hchain r0' hr0
    have hr : r0' = r0 := by
      simp only [List.head?_cons, Option.mem_def] at hr0
      injection hr0 with h'
      exact h'.symm
    rw [hr]
    exact route_nodes_of_chain r0 rs hchain

/-! ## Concrete witnesses and counterexamples for the Capacity Allocator -/

/-- Counterexample to C1 as stated: a single vehicle of capacity 99.999 kg
carrying 99.999 kg of cargo reports `load_kg = round(99.999, 2) = 100.0`,
which exceeds its capacity, and the loads' sum 100.0 differs from
min(cargo, total assigned capacity) = 99.999.  The invariant holds for the
pre-rounding loads (see the amended theorem). -/
theorem claim_C1_counterexample :
    (assign_vehicles_for_leg [vehC1] edgeAB (99999/1000) "cost"
        (some (fun _ => true))).map
      (fun a => (a.vehicles.map (fun e => e.load_kg),
                 a.vehicles.map (fun e => e.capacity_kg))) =
      some ([100], [99999/1000]) ∧
    ¬ ((100 : ℚ) ≤ 99999/1000) ∧
    (100 : ℚ) ≠ min (99999/1000) (99999/1000) := by
  have hpool : vehiclesAt [vehC1] edgeAB.fromCity = [vehC1] := by
    have h1 : (pyLower vehC1.base_city == pyLower edgeAB.fromCity) = true := by decide
    simp only [vehiclesAt, List.filter_cons, List.filter_nil, h1, if_true]
  refine ⟨?_, by norm_num, by norm_num⟩
  rw [assign_vehicles_some _ _ _ _ _ (by rw [hpool]; simp)]
  rw [Option.map_some']
  simp only [hpool]
  rw [assignLoop_cons_pos edgeAB (fun _ => true) vehC1 [] 0 (99999/1000) rfl (by norm_num)]
  rw [show min vehC1.capacity_kg (99999/1000 : ℚ) = 99999/1000 from
    min_eq_right (le_refl _)]
  rw [assignLoop_nonpos edgeAB (fun _ => true) [] 1 (99999/1000 - 99999/1000) (by norm_num)]
  simp only [List.map_cons, List.map_nil]
  have hload : (mkEntry edgeAB vehC1 (99999/1000)).load_kg = 100 := by
    show round2 (99999/1000) = 100
    norm_num [round2, roundHalfEven]
  have hcap : (mkEntry edgeAB vehC1 (99999/1000)).capacity_kg = 99999/1000 := rfl
  rw [hload, hcap]

/-- Witness for the amended C1 at a concrete input: one 100 kg vehicle
carrying 50 kg; the pre-rounding loads sum to min(50, 100) = 50 and respect
the capacity. -/
theorem claim_C1_witness :
    (assign_vehicles_for_leg [vehC2] edgeAB 50 "cost" (some (fun _ => true))).map
      (fun a => ((a.vehicles.map (fun e => e.load_raw)).sum,
                 min 50 ((a.vehicles.map (fun e => e.capacity_kg)).sum))) =
      some (50, 50) := by
  have hpool : vehiclesAt [vehC2] edgeAB.fromCity = [vehC2] := by
    have h1 : (pyLower vehC2.base_city == pyLower edgeAB.fromCity) = true := by decide
    simp only [vehiclesAt, List.filter_cons, List.filter_nil, h1, if_true]
  have heval : assign_vehicles_for_leg [vehC2] edgeAB 50 "cost" (some (fun _ => true)) =
      some { fromCity := edgeAB.fromCity, toCity := edgeAB.toCity,
             vehicles := [mkEntry edgeAB vehC2 50],
             leg_distance := edgeAB.distance, leg_time := edgeAB.time,
             last_arrival_dt := some (mkEntry edgeAB vehC2 50).arrival_dt,
             last_arrival := some (formatHHMM (mkEntry edgeAB vehC2 50).arrival_dt) } := by
    rw [assign_vehicles_some _ _ _ _ _ (by rw [hpool]; simp)]
    simp only [hpool]
    rw [assignLoop_cons_pos edgeAB (fun _ => true) vehC2 [] 0 50 rfl (by norm_num)]
    rw [show min vehC2.capacity_kg (50 : ℚ) = 50 from min_eq_right (by norm_num [vehC2])]
    rw [assignLoop_nonpos edgeAB (fun _ => true) [] 1 (50 - 50) (by norm_num)]
    rfl
  have hsum := (claim_C1_amended [vehC2] edgeAB 50 "cost" (some (fun _ => true)) _ heval
    (by simp)).1
  rw [heval, Option.map_some']
  simp only at hsum
  rw [hsum]
  have hcap : (mkEntry edgeAB vehC2 50).capacity_kg = 100 := rfl
  simp only [List.map_cons, List.map_nil, List.sum_cons, List.sum_nil, hcap, add_zero]
  rw [min_eq_left (by norm_num : (50 : ℚ) ≤ 100)]

/-- Counterexample to C2 as stated: one 100 kg vehicle and a 0.001 kg
cargo; the allocator succeeds but the reported total load is
`round(0.001, 2) = 0.0`, not the cargo weight. -/
theorem claim_C2_counterexample :
    (assign_vehicles_for_leg [vehC2] edgeAB (1/1000) "cost" (some (fun _ => true))).map
      (fun a => (a.vehicles.map (fun e => e.load_kg)).sum) = some 0 ∧
    (0 : ℚ) ≠ 1/1000 := by
  have hpool : vehiclesAt [vehC2] edgeAB.fromCity = [vehC2] := by
    have h1 : (pyLower vehC2.base_city == pyLower edgeAB.fromCity) = true := by decide
    simp only [vehiclesAt, List.filter_cons, List.filter_nil, h1, if_true]
  refine ⟨?_, by norm_num⟩
  rw [assign_vehicles_some _ _ _ _ _ (by rw [hpool]; simp)]
  rw [Option.map_some']
  simp only [hpool]
  rw [assignLoop_cons_pos edgeAB (fun _ => true) vehC2 [] 0 (1/1000) rfl (by norm_num)]
  rw [show min vehC2.capacity_kg (1/1000 : ℚ) = 1/1000 from
    min_eq_right (by norm_num [vehC2])]
  rw [assignLoop_nonpos edgeAB (fun _ => true) [] 1 (1/1000 - 1/1000) (by norm_num)]
  simp only [List.map_cons, List.map_nil, List.sum_cons, List.sum_nil, add_zero]
  have hl : (mkEntry edgeAB vehC2 (1/1000)).load_kg = round2 (1/1000) := rfl
  rw [hl, show round2 (1/1000 : ℚ) = 0 from by norm_num [round2, roundHalfEven]]

/-- Witness for the amended C2 at a concrete input: a 100 kg vehicle covers
a 50 kg cargo and the pre-rounding loads sum to exactly 50. -/
theorem claim_C2_witness :
    (assign_vehicles_for_leg [vehC2] edgeAB 50 "cost" (some (fun _ => true))).map
      (fun a => (a.vehicles.map (fun e => e.load_raw)).sum) = some 50 := by
  have hpool : vehiclesAt [vehC2] edgeAB.fromCity = [vehC2] := by
    have h1 : (pyLower vehC2.base_city == pyLower edgeAB.fromCity) = true := by decide
    simp only [vehiclesAt, List.filter_cons, List.filter_nil, h1, if_true]
  obtain ⟨a, ha, hsum, _⟩ := claim_C2_amended [vehC2] edgeAB 50 "cost"
    (some (fun _ => true)) (by norm_num)
    (by intro v hv; simp at hv; subst hv; show (0:ℚ) < 100; norm_num)
    (by rw [hpool]; show (50:ℚ) ≤ 100 + 0; norm_num)
    (by intro sel h
        injection h with h'
        subst h'
        unfold VehFeasible
        rw [hpool, selCapSum_all_true]
        show (50:ℚ) ≤ 100 + 0
        norm_num)
    (fun _ h => Option.noConfusion h)
  rw [ha, Option.map_some', hsum]

/-- Witness for C9 at a concrete input: one vehicle at the origin and zero
cargo yield a successful empty assignment. -/
theorem claim_C9_witness :
    (assign_vehicles_for_leg [vehA] edgeAB 0 "cost" (some (fun _ => true))).map
      (fun a => (a.vehicles, a.last_arrival)) = some ([], none) := by
  have hpool : vehiclesAt [vehA] edgeAB.fromCity = [vehA] := by
    have h1 : (pyLower vehA.base_city == pyLower edgeAB.fromCity) = true := by decide
    simp only [vehiclesAt, List.filter_cons, List.filter_nil, h1, if_true]
  obtain ⟨a, ha, hveh, hla, _⟩ := claim_C9 [vehA] edgeAB 0 "cost" (some (fun _ => true))
    (by rw [hpool]; simp) le_rfl (fun _ h => Option.noConfusion h)
  rw [ha, Option.map_some', hveh, hla]

/-- Witness for C7 at a concrete input: a 500 kg truck (80 km/h, $0.50/km,
departure 08:00) on the 100 km leg a → b departs 08:00, travels 1.25 h,
arrives 09:15, and costs $50; the leg's last arrival is 09:15. -/
theorem claim_C7_witness :
    (assign_vehicles_for_leg [vehA] edgeAB 100 "cost" (some (fun _ => true))).map
      (fun a => (a.vehicles.map
          (fun e => (e.departure, e.arrival, e.travel_time_hours, e.fuel_cost)),
        a.last_arrival)) =
      some ([((8, 0), (9, 15), 5/4, 50)], some (9, 15)) := by
  have hpool : vehiclesAt [vehA] edgeAB.fromCity = [vehA] := by
    have h1 : (pyLower vehA.base_city == pyLower edgeAB.fromCity) = true := by decide
    simp only [vehiclesAt, List.filter_cons, List.filter_nil, h1, if_true]
  have heval : assign_vehicles_for_leg [vehA] edgeAB 100 "cost" (some (fun _ => true)) =
      some { fromCity := edgeAB.fromCity, toCity := edgeAB.toCity,
             vehicles := [mkEntry edgeAB vehA 100],
             leg_distance := edgeAB.distance, leg_time := edgeAB.time,
             last_arrival_dt := some (mkEntry edgeAB vehA 100).arrival_dt,
             last_arrival := some (formatHHMM (mkEntry edgeAB vehA 100).arrival_dt) } := by
    rw [assign_vehicles_some _ _ _ _ _ (by rw [hpool]; simp)]
    simp only [hpool]
    rw [assignLoop_cons_pos edgeAB (fun _ => true) vehA [] 0 100 rfl (by norm_num)]
    rw [show min vehA.capacity_kg (100 : ℚ) = 100 from min_eq_right (by norm_num [vehA])]
    rw [assignLoop_nonpos edgeAB (fun _ => true) [] 1 (100 - 100) (by norm_num)]
    rfl
  have h7 := claim_C7 [vehA] edgeAB 100 "cost" (some (fun _ => true)) _ heval
  have harr_dt : (mkEntry edgeAB vehA 100).arrival_dt = 37/4 := by
    show parseDeparture vehA.departure_time + edgeAB.distance / vehA.speed_kmph = 37/4
    norm_num [parseDeparture, vehA, edgeAB]
  have hdep : (mkEntry edgeAB vehA 100).departure = (8, 0) := by
    show formatHHMM (parseDeparture vehA.departure_time) = (8, 0)
    norm_num [parseDeparture, vehA, formatHHMM]
  have harr : (mkEntry edgeAB vehA 100).arrival = (9, 15) := by
    show formatHHMM ((mkEntry edgeAB vehA 100).arrival_dt) = (9, 15)
    rw [harr_dt]
    norm_num [formatHHMM]
  have htt : (mkEntry edgeAB vehA 100).travel_time_hours = 5/4 := by
    show round2 (edgeAB.distance / vehA.speed_kmph) = 5/4
    norm_num [vehA, edgeAB, round2, roundHalfEven]
  have hfc : (mkEntry edgeAB vehA 100).fuel_cost = 50 := by
    show round2 (vehA.cost_per_km * edgeAB.distance) = 50
    norm_num [vehA, edgeAB, round2, roundHalfEven]
  have harr2 : formatHHMM ((mkEntry edgeAB vehA 100).arrival_dt) = (9, 15) := by
    rw [harr_dt]
    norm_num [formatHHMM]
  rw [heval, Option.map_some']
  simp only [List.map_cons, List.map_nil, hdep, harr, htt, hfc, harr2]

/-- Witness for C10 at a concrete input: a truck departing 23:00 on a
1.25 h leg arrives at the instant 24.25 h; the reported arrival (and the
reported last arrival) is the wrapped clock time 00:15, which reads earlier
than the 23:00 departure although the arrival instant is later. -/
theorem claim_C10_witness :
    (assign_vehicles_for_leg [vehLate] edgeAB 100 "cost" (some (fun _ => true))).map
      (fun a => (a.vehicles.map (fun e => (e.departure, e.arrival)), a.last_arrival)) =
      some ([((23, 0), (0, 15))], some (0, 15)) ∧
    ((0 : ℤ) < 23 ∧ (23 : ℚ) < 97/4) := by
  have hpool : vehiclesAt [vehLate] edgeAB.fromCity = [vehLate] := by
    have h1 : (pyLower vehLate.base_city == pyLower edgeAB.fromCity) = true := by decide
    simp only [vehiclesAt, List.filter_cons, List.filter_nil, h1, if_true]
  have heval : assign_vehicles_for_leg [vehLate] edgeAB 100 "cost" (some (fun _ => true)) =
      some { fromCity := edgeAB.fromCity, toCity := edgeAB.toCity,
             vehicles := [mkEntry edgeAB vehLate 100],
             leg_distance := edgeAB.distance, leg_time := edgeAB.time,
             last_arrival_dt := some (mkEntry edgeAB vehLate 100).arrival_dt,
             last_arrival := some (formatHHMM (mkEntry edgeAB vehLate 100).arrival_dt) } := by
    rw [assign_vehicles_some _ _ _ _ _ (by rw [hpool]; simp)]
    simp only [hpool]
    rw [assignLoop_cons_pos edgeAB (fun _ => true) vehLate [] 0 100 rfl (by norm_num)]
    rw [show min vehLate.capacity_kg (100 : ℚ) = 100 from
      min_eq_right (by norm_num [vehLate])]
    rw [assignLoop_nonpos edgeAB (fun _ => true) [] 1 (100 - 100) (by norm_num)]
    rfl
  have h10 := claim_C10 [vehLate] edgeAB 100 "cost" (some (fun _ => true)) _ heval
  have harr_dt : (mkEntry edgeAB vehLate 100).arrival_dt = 97/4 := by
    show parseDeparture vehLate.departure_time + edgeAB.distance / vehLate.speed_kmph = 97/4
    norm_num [parseDeparture, vehLate, edgeAB]
  have hdep : (mkEntry edgeAB vehLate 100).departure = (23, 0) := by
    show formatHHMM (parseDeparture vehLate.departure_time) = (23, 0)
    norm_num [parseDeparture, vehLate, formatHHMM]
  have harr : (mkEntry edgeAB vehLate 100).arrival = (0, 15) := by
    show formatHHMM ((mkEntry edgeAB vehLate 100).arrival_dt) = (0, 15)
    rw [harr_dt]
    norm_num [formatHHMM]
  have hlast := (h10.2 ((mkEntry edgeAB vehLate 100).arrival_dt) rfl).2.2
  have harr2 : formatHHMM ((mkEntry edgeAB vehLate 100).arrival_dt) = (0, 15) := by
    rw [harr_dt]
    norm_num [formatHHMM]
  refine ⟨?_, by norm_num, by norm_num⟩
  rw [heval, Option.map_some']
  simp only [List.map_cons, List.map_nil, hdep, harr, harr2]

/-! ## Concrete witnesses and counterexamples for the Plan Aggregator -/

/-- Witness for C3 at a concrete two-leg plan: the first leg's vehicles
arrive at 09:15, the second leg's at 07:52 (early departure); the plan's
final delivery time is the last processed leg's 07:52, not the 09:15
maximum over all legs. -/
theorem claim_C3_witness :
    (optimize_with_capacity_plan [vehA, vehB6] 100 "cost" [edgeAB, edgeBC]
        [some (fun _ => true), some (fun _ => true)]).map
      (fun p => (p.final_delivery_time, p.legs.map (fun a => a.last_arrival))) =
      some (some (7, 52), [some (9, 15), some (7, 52)]) ∧
    some ((7 : ℤ), (52 : ℤ)) ≠ some ((9 : ℤ), (15 : ℤ)) := by
  have hpool1 : vehiclesAt [vehA, vehB6] edgeAB.fromCity = [vehA] := by
    have h1 : (pyLower vehA.base_city == pyLower edgeAB.fromCity) = true := by decide
    have h2 : (pyLower vehB6.base_city == pyLower edgeAB.fromCity) = false := by decide
    simp [vehiclesAt, h1, h2]
  have hpool2 : vehiclesAt [vehA, vehB6] edgeBC.fromCity = [vehB6] := by
    have h1 : (pyLower vehA.base_city == pyLower edgeBC.fromCity) = false := by decide
    have h2 : (pyLower vehB6.base_city == pyLower edgeBC.fromCity) = true := by decide
    simp [vehiclesAt, h1, h2]
  have heval1 : assign_vehicles_for_leg [vehA, vehB6] edgeAB 100 "cost"
      (some (fun _ => true)) = some assignC3a := by
    rw [assign_vehicles_some _ _ _ _ _ (by rw [hpool1]; simp)]
    simp only [hpool1]
    rw [assignLoop_cons_pos edgeAB (fun _ => true) vehA [] 0 100 rfl (by norm_num)]
    rw [show min vehA.capacity_kg (100 : ℚ) = 100 from min_eq_right (by norm_num [vehA])]
    rw [assignLoop_nonpos edgeAB (fun _ => true) [] 1 (100 - 100) (by norm_num)]
    rfl
  have heval2 : assign_vehicles_for_leg [vehA, vehB6] edgeBC 100 "cost"
      (some (fun _ => true)) = some assignC3b := by
    rw [assign_vehicles_some _ _ _ _ _ (by rw [hpool2]; simp)]
    simp only [hpool2]
    rw [assignLoop_cons_pos edgeBC (fun _ => true) vehB6 [] 0 100 rfl (by norm_num)]
    rw [show min vehB6.capacity_kg (100 : ℚ) = 100 from min_eq_right (by norm_num [vehB6])]
    rw [assignLoop_nonpos edgeBC (fun _ => true) [] 1 (100 - 100) (by norm_num)]
    rfl
  have hb2 : buildLegs [vehA, vehB6] 100 "cost" [edgeBC] [some (fun _ => true)] =
      some [assignC3b] := by
    rw [buildLegs_cons_some [vehA, vehB6] 100 "cost" edgeBC [] [some (fun _ => true)]
      assignC3b heval2]
    rfl
  have hbuild : buildLegs [vehA, vehB6] 100 "cost" [edgeAB, edgeBC]
      [some (fun _ => true), some (fun _ => true)] = some [assignC3a, assignC3b] := by
    rw [buildLegs_cons_some [vehA, vehB6] 100 "cost" edgeAB [edgeBC]
      [some (fun _ => true), some (fun _ => true)] assignC3a heval1]
    simp only [List.tail_cons]
    rw [hb2]
    rfl
  have hplan : optimize_with_capacity_plan [vehA, vehB6] 100 "cost" [edgeAB, edgeBC]
      [some (fun _ => true), some (fun _ => true)] = some planC3 := by
    rw [optimize_with_capacity_plan_cons, hbuild]
    rfl
  obtain ⟨a, hga, hfa⟩ := claim_C3 [vehA, vehB6] 100 "cost" [edgeAB, edgeBC]
    [some (fun _ => true), some (fun _ => true)] planC3 hplan
  have hgb : planC3.legs.getLast? = some assignC3b := rfl
  rw [hgb] at hga
  injection hga with ha'
  subst ha'
  have h1 : formatHHMM ((mkEntry edgeAB vehA 100).arrival_dt) = (9, 15) := by
    rw [show (mkEntry edgeAB vehA 100).arrival_dt = 37/4 from by
      show parseDeparture vehA.departure_time + edgeAB.distance / vehA.speed_kmph = 37/4
      norm_num [parseDeparture, vehA, edgeAB]]
    norm_num [formatHHMM]
  have h2 : formatHHMM ((mkEntry edgeBC vehB6 100).arrival_dt) = (7, 52) := by
    rw [show (mkEntry edgeBC vehB6 100).arrival_dt = 63/8 from by
      show parseDeparture vehB6.departure_time + edgeBC.distance / vehB6.speed_kmph = 63/8
      norm_num [parseDeparture, vehB6, edgeBC]]
    norm_num [formatHHMM]
  refine ⟨?_, by decide⟩
  rw [hplan, Option.map_some']
  have hfd : planC3.final_delivery_time = some (7, 52) := by
    rw [hfa]
    show some (formatHHMM ((mkEntry edgeBC vehB6 100).arrival_dt)) = some (7, 52)
    rw [h2]
  have hlegs : planC3.legs.map (fun a => a.last_arrival) = [some (9, 15), some (7, 52)] := by
    show [some (formatHHMM ((mkEntry edgeAB vehA 100).arrival_dt)),
          some (formatHHMM ((mkEntry edgeBC vehB6 100).arrival_dt))] = _
    rw [h1, h2]
  rw [hfd, hlegs]

/-- Counterexample to C4 as stated: for the path z → a → b, `optimize`
returns the legs sorted by key as [(a, b), (z, a)] — not in path order (the
second leg's origin "z" differs from the first leg's destination "b") — and
the successfully built plan's node sequence is ["a", "z", "a"], not the
start node followed by each leg's destination ["z", "a", "b"]. -/
theorem claim_C4_counterexample :
    (optimize_with_capacity_plan [vehA, vehZ] 100 "cost"
      (optimize ["a", "b", "z"] [(("z", "a"), edgeZA), (("a", "b"), edgeAB)] "z" "b" "cost" []
        (some (fun _ => true))) [some (fun _ => true), some (fun _ => true)]).map
      (fun p => (p.route, p.legs.map (fun a => (a.fromCity, a.toCity)))) =
      some (["a", "z", "a"], [("a", "b"), ("z", "a")]) ∧
    (["a", "z", "a"] : List String) ≠ ["z", "a", "b"] ∧
    ("z" : String) ≠ "b" := by
  refine ⟨by decide, by decide, by decide⟩

/-- Witness for the amended C4: on a path-consecutive route a → b → c the
plan's node sequence is the start node followed by each leg's
destination. -/
theorem claim_C4_witness :
    (optimize_with_capacity_plan [vehA, vehB6] 100 "cost" [edgeAB, edgeBC]
        [some (fun _ => true), some (fun _ => true)]).map (fun p => p.route) =
      some ["a", "b", "c"] := by
  cases hO : optimize_with_capacity_plan [vehA, vehB6] 100 "cost" [edgeAB, edgeBC]
      [some (fun _ => true), some (fun _ => true)] with
  | none =>
    have hd : (optimize_with_capacity_plan [vehA, vehB6] 100 "cost" [edgeAB, edgeBC]
        [some (fun _ => true), some (fun _ => true)]).map (fun p => p.route) =
        some ["a", "b", "c"] := by decide
    rw [hO] at hd
    exact absurd hd (by simp)
  | some p =>
    have h4 := claim_C4_amended [vehA, vehB6] 100 "cost" [edgeAB, edgeBC]
      [some (fun _ => true), some (fun _ => true)] p hO
    have hch : List.Chain' (fun a b => b.fromCity = a.toCity) [edgeAB, edgeBC] :=
      List.chain'_cons.mpr ⟨by decide, List.chain'_singleton _⟩
    have hr := h4.2 hch edgeAB (by simp)
    rw [Option.map_some', hr]
    rfl

end IntelliFleet
